import Mathlib

/-!
Verification of the virtual-memory subsystem of the riscv-pke teaching kernel
(src/kernel/vmm.c, src/kernel/vmm.h).  The C code is shallowly embedded:
page-table memory is an association list from (table page address, entry
index) to 64-bit entry values, the external physical page allocator is a
bump counter with finite fuel, and the heap-allocator bookkeeping lists
(the intrusive doubly linked lists of vmm.c) are Lean lists in `suc` order.
-/

set_option linter.unusedVariables false
set_option maxRecDepth 10000

/-! ## Platform constants (riscv.h / util/functions.h, not under src/) -/

/-- Page size in bytes (riscv.h, `PGSIZE`). -/
def PGSIZE : Nat := 4096

/-- Bits of in-page offset (riscv.h, `PGSHIFT`). -/
def PGSHIFT : Nat := 12

/-- Modelled from the spec: maximum supported virtual address of the sv39
scheme, `MAXVA = 1 << (9 + 9 + 9 + 12 - 1)` (riscv.h is not under src/; the
spec fixes the 3-level, 9-bit-per-level, 39-bit layout). -/
def MAXVA : Nat := 2 ^ (9 + 9 + 9 + 12 - 1)

/-- PTE validity bit (riscv.h, `PTE_V`). -/
def PTE_V : Nat := 1

/-- PTE readable bit. -/
def PTE_R : Nat := 2

/-- PTE writable bit. -/
def PTE_W : Nat := 4

/-- PTE executable bit. -/
def PTE_X : Nat := 8

/-- PTE user-accessible bit. -/
def PTE_U : Nat := 16

/-- PTE global bit. -/
def PTE_G : Nat := 32

/-- PTE accessed bit. -/
def PTE_A : Nat := 64

/-- PTE dirty bit. -/
def PTE_D : Nat := 128

/-- Permission code `PROT_READ` (vmm.h). -/
def PROT_READ : Nat := 1

/-- Permission code `PROT_WRITE` (vmm.h). -/
def PROT_WRITE : Nat := 2

/-- Permission code `PROT_EXEC` (vmm.h). -/
def PROT_EXEC : Nat := 4

/-- Modelled from the spec: `PA2PTE(pa) = ((pa >> 12) << 10)` (riscv.h is not
under src/; the standard sv39 encoding is fixed by the spec's hardware
compatibility requirement). -/
def PA2PTE (pa : Nat) : Nat := pa / 4096 * 1024

/-- Modelled from the spec: `PTE2PA(pte) = ((pte >> 10) << 12)`. -/
def PTE2PA (pte : Nat) : Nat := pte / 1024 * 4096

/-- Modelled from the spec: `PX(level, va)` extracts the 9-bit page-table
index of `va` for the given level, `(va >> (12 + 9*level)) & 0x1FF`. -/
def PX (level va : Nat) : Nat := va / 2 ^ (PGSHIFT + 9 * level) % 512

/-- Modelled from the spec: `ROUNDDOWN(a, b) = a / b * b`
(util/functions.h is not under src/). -/
def ROUNDDOWN (a b : Nat) : Nat := a / b * b

/-- The uint64 value of `~PTE_V`, used by `*pte &= ~PTE_V`. -/
def NOTV : Nat := 2 ^ 64 - 2

/-! ## Page-table memory and the external physical page allocator -/

/-- Page-table memory: an association list from (table page physical
address, entry index) to the 64-bit entry stored there.  Absent keys read
as zero (a freshly zeroed table has no keys). -/
def PTMem := List ((Nat × Nat) × Nat)

instance : DecidableEq PTMem := by
  unfold PTMem
  infer_instance

/-- Read the page-table entry at index `i` of the table page at `t`. -/
def readPTE : PTMem → Nat → Nat → Nat
  | [], _, _ => 0
  | ((t0, i0), v) :: m, t, i => if t0 = t ∧ i0 = i then v else readPTE m t i

/-- Store value `v` into entry `i` of table page `t` (`*pte = v`). -/
def writePTE (m : PTMem) (t i v : Nat) : PTMem := ((t, i), v) :: m

/-- Erase every entry of the table page at `f`: the effect of
`memset(pt, 0, PGSIZE)` on a page used as a page table. -/
def erasePage : PTMem → Nat → PTMem
  | [], _ => []
  | ((t0, i0), v) :: m, f =>
    if t0 = f then erasePage m f else ((t0, i0), v) :: erasePage m f

/-- Machine state seen by vmm.c: the page-table memory plus the external
physical page allocator (pmm.c, out of scope per the spec), modelled from
the spec as a bump source of fresh page-aligned addresses with finite
fuel (`avail`), failing with a null sentinel when exhausted, plus the
list of page addresses handed to `free_page`. -/
structure Mach where
  ptmem : PTMem
  nextPA : Nat
  avail : Nat
  freed : List Nat
deriving DecidableEq

/-- Modelled from the spec: `alloc_page()` returns a fresh physical page or
a null sentinel (`none`) when physical memory is exhausted. -/
def alloc_page (st : Mach) : Option (Mach × Nat) :=
  if st.avail = 0 then none
  else some ({ st with nextPA := st.nextPA + PGSIZE, avail := st.avail - 1 }, st.nextPA)

/-- Modelled from the spec: `free_page(pa)` returns the page to the external
allocator; we record the reclaimed addresses. -/
def free_page (st : Mach) (pa : Nat) : Mach := { st with freed := pa :: st.freed }

/-! ## page_walk / lookup_pa / prot_to_type / map_pages / user_vm_unmap -/

/-- Result of the `page_walk` descent loop: either a null return (alloc
failure at an intermediate level, state at that point kept), or success
with the final table page address. -/
inductive PWRes where
  | fail (st : Mach)
  | ok (st : Mach) (pt : Nat)
deriving DecidableEq

/-- The `for (level = 2; level > 0; level--)` loop of `page_walk`: at each
upper level follow a valid entry, otherwise (when `alloc` is set) allocate
and zero a fresh table page and install a pointer entry to it. -/
def pw_loop (va : Nat) (alloc : Bool) : Nat → Mach → Nat → PWRes
  | 0, st, pt => PWRes.ok st pt
  | level + 1, st, pt =>
    let e := readPTE st.ptmem pt (PX (level + 1) va)
    if e &&& PTE_V ≠ 0 then
      pw_loop va alloc level st (PTE2PA e)
    else if alloc then
      match alloc_page st with
      | some (st1, f) =>
        pw_loop va alloc level
          { st1 with
            ptmem := writePTE (erasePage st1.ptmem f) pt (PX (level + 1) va)
                       (PA2PTE f ||| PTE_V) } f
      | none => PWRes.fail st
    else PWRes.fail st

/-- Outcome of `page_walk`: fatal (the `panic` on `va >= MAXVA`), a null
pointer return, or the location (table page, index) of the level-0 PTE. -/
inductive PWOut where
  | fatal
  | null (st : Mach)
  | ok (st : Mach) (t i : Nat)
deriving DecidableEq

/-- `page_walk(page_dir, va, alloc)` from vmm.c. -/
def page_walk (st : Mach) (pd va : Nat) (alloc : Bool) : PWOut :=
  if MAXVA ≤ va then PWOut.fatal
  else
    match pw_loop va alloc 2 st pd with
    | PWRes.fail st' => PWOut.null st'
    | PWRes.ok st' pt => PWOut.ok st' pt (PX 0 va)

/-- `lookup_pa(pagetable, va)` from vmm.c: returns the physical page address
or 0 when the entry is missing, invalid, or carries neither R nor W. -/
def lookup_pa (st : Mach) (pd va : Nat) : Nat :=
  if MAXVA ≤ va then 0
  else
    match page_walk st pd va false with
    | PWOut.fatal => 0
    | PWOut.null _ => 0
    | PWOut.ok st' t i =>
      let e := readPTE st'.ptmem t i
      if e &&& PTE_V = 0 ∨ (e &&& PTE_R = 0 ∧ e &&& PTE_W = 0) then 0
      else PTE2PA e

/-- `prot_to_type(prot, user)` from vmm.c. -/
def prot_to_type (prot user : Nat) : Nat :=
  let p0 : Nat := 0
  let p1 := if prot &&& PROT_READ ≠ 0 then p0 ||| (PTE_R ||| PTE_A) else p0
  let p2 := if prot &&& PROT_WRITE ≠ 0 then p1 ||| (PTE_W ||| PTE_D) else p1
  let p3 := if prot &&& PROT_EXEC ≠ 0 then p2 ||| (PTE_X ||| PTE_A) else p2
  let p4 := if p3 = 0 then PTE_R else p3
  if user ≠ 0 then p4 ||| PTE_U else p4

/-- Outcome of `map_pages`: the fatal `panic` on an already-valid target
entry (with the state, location and pre-existing entry at that moment),
the fatal `panic` inside `page_walk` for `va >= MAXVA`, the `-1` failure
return, or the `0` success return. -/
inductive MPOut where
  | fatalRemap (st : Mach) (t i : Nat)
  | fatalWalk (st : Mach)
  | fail (st : Mach)
  | ok (st : Mach)
deriving DecidableEq

/-- The mapping loop of `map_pages`, iterating over `n` page boundaries
starting at `first`, with physical address `pa` advancing one page per
step. -/
def mp_loop (pd perm : Nat) : Nat → Nat → Nat → Mach → MPOut
  | 0, _, _, st => MPOut.ok st
  | n + 1, first, pa, st =>
    match page_walk st pd first true with
    | PWOut.fatal => MPOut.fatalWalk st
    | PWOut.null st' => MPOut.fail st'
    | PWOut.ok st' t i =>
      let e := readPTE st'.ptmem t i
      if e &&& PTE_V ≠ 0 then MPOut.fatalRemap st' t i
      else
        mp_loop pd perm n (first + PGSIZE) (pa + PGSIZE)
          { st' with ptmem := writePTE st'.ptmem t i (PA2PTE pa ||| perm ||| PTE_V) }

/-- Number of iterations of the `first <= last` loop of `map_pages` and
`user_vm_unmap` (faithful for `size >= 1`; `size = 0` wraps in C and is
outside every claim). -/
def pageSpan (va size : Nat) : Nat :=
  (ROUNDDOWN (va + size - 1) PGSIZE - ROUNDDOWN va PGSIZE) / PGSIZE + 1

/-- `map_pages(page_dir, va, size, pa, perm)` from vmm.c. -/
def map_pages (st : Mach) (pd va size pa perm : Nat) : MPOut :=
  mp_loop pd perm (pageSpan va size) (ROUNDDOWN va PGSIZE) pa st

/-- The per-page body of `user_vm_unmap`: look the entry up with creation
enabled (`continue` on a null walk), clear `PTE_V`, and reclaim the
physical page unconditionally.  `none` models the fatal walk on
`va >= MAXVA`. -/
def uvu_loop (pd : Nat) : Nat → Nat → Mach → Option Mach
  | 0, _, st => some st
  | n + 1, first, st =>
    match page_walk st pd first true with
    | PWOut.fatal => none
    | PWOut.null st' => uvu_loop pd n (first + PGSIZE) st'
    | PWOut.ok st' t i =>
      let e' := readPTE st'.ptmem t i &&& NOTV
      uvu_loop pd n (first + PGSIZE)
        (free_page { st' with ptmem := writePTE st'.ptmem t i e' } (PTE2PA e'))

/-- `user_vm_unmap(page_dir, va, size, free)` from vmm.c.  The `free`
parameter is accepted and ignored, exactly as in the source. -/
def user_vm_unmap (st : Mach) (pd va size fr : Nat) : Option Mach :=
  uvu_loop pd (pageSpan va size) (ROUNDDOWN va PGSIZE) st

/-! ## The user-space heap allocator (vmm.c lower half) -/

/-- Size in bytes of `struct page_info_t` (vmm.h): five 8-byte fields
(`pre`, `suc`, `va`, `head`, `next`) on LP64. -/
def sizeof_page_info : Nat := 40

/-- Size in bytes of `struct segment_info_t` (vmm.h): two pointers, a
`uint64`, and two `uint16`, padded to 8-byte alignment on LP64. -/
def sizeof_segment_info : Nat := 32

/-- A node of the valid Segment Info list (vmm.h `segment_info`).  `addr`
is the node's slot address in its pool page; the intrusive `pre`/`suc`
links are represented by the node's position in the Lean list. -/
structure segment_info where
  addr : Nat
  va : Nat
  size : Nat
  occupy : Bool
deriving DecidableEq

/-- The payload fields of a `page_info` node (vmm.h): `va` and the
singly linked `next` pointer (`nxt`; 0 is the null pointer).  Bytes never
written are modelled as zero-filled. -/
structure page_info_v where
  va : Nat
  nxt : Nat
deriving DecidableEq

/-- Read a page-info node's payload from the slot store; unwritten slots
read as zero-filled. -/
def readPI : List (Nat × page_info_v) → Nat → page_info_v
  | [], _ => ⟨0, 0⟩
  | (a0, v) :: s, a => if a0 = a then v else readPI s a

/-- Store a page-info node's payload at slot address `a`. -/
def writePI (s : List (Nat × page_info_v)) (a : Nat) (v : page_info_v) :
    List (Nat × page_info_v) := (a, v) :: s

/-- Whole-allocator state: machine state, the current process's root page
table (`current->pagetable`), the bump cursor `g_ufree_page`, the valid
Segment Info list, the two pool free lists (slot addresses, `suc` order)
and the valid Page Info list with the page-info slot store. -/
structure AllocState where
  mach : Mach
  pagetable : Nat
  g_ufree_page : Nat
  segs : List segment_info
  segEmpty : List Nat
  piValid : List Nat
  piEmpty : List Nat
  piStore : List (Nat × page_info_v)
deriving DecidableEq

/-- The carving loop of `get_element`:
`for (i = 0; i + size <= PGSIZE; i += size) delete_element(empty, pa + i)`;
each slot is pushed at the front of the empty list, so later slots end up
first.  `cnt` is the number of iterations, `PGSIZE / size`. -/
def carve (pa size : Nat) : Nat → List Nat → List Nat
  | 0, emp => emp
  | n + 1, emp => carve (pa + size) size n (pa :: emp)

/-- `get_element(valid, empty, size)` from vmm.c: pop the head of the empty
list, refilling it first from a freshly allocated page when it is empty.
The refill's 8-byte `memset` has no structural effect (see
`get_element_refill_zero` for the byte-level model); the append of the
returned node to the valid list is commented out in the source and
therefore absent here.  `none` models the crash after allocator
exhaustion (the source does not check for a null page). -/
def get_element (m : Mach) (emp : List Nat) (size : Nat) :
    Option (Mach × List Nat × Nat) :=
  match emp with
  | r :: rest => some (m, rest, r)
  | [] =>
    match alloc_page m with
    | none => none
    | some (m1, pa) =>
      match carve pa size (PGSIZE / size) [] with
      | [] => none
      | r :: rest => some (m1, rest, r)

/-- `get_segment_info()` from vmm.c. -/
def get_segment_info (st : AllocState) : Option (AllocState × Nat) :=
  (get_element st.mach st.segEmpty sizeof_segment_info).map
    (fun r => ({ st with mach := r.1, segEmpty := r.2.1 }, r.2.2))

/-- `get_page_info()` from vmm.c. -/
def get_page_info (st : AllocState) : Option (AllocState × Nat) :=
  (get_element st.mach st.piEmpty sizeof_page_info).map
    (fun r => ({ st with mach := r.1, piEmpty := r.2.1 }, r.2.2))

/-- `alloc_page_with_vm(perm)` from vmm.c: round the cursor up to a page
boundary, back it with a fresh physical page (installed without any
validity check on the target entry), and advance the cursor one page.
`none` models the crash on allocator exhaustion / null walk / fatal walk,
none of which the source checks for. -/
def alloc_page_with_vm (st : AllocState) (perm : Nat) :
    Option (AllocState × Nat) :=
  match alloc_page st.mach with
  | none => none
  | some (m1, pa) =>
    let g1 := ROUNDDOWN (st.g_ufree_page + PGSIZE - 1) PGSIZE
    match page_walk m1 st.pagetable g1 true with
    | PWOut.fatal => none
    | PWOut.null _ => none
    | PWOut.ok m2 t i =>
      some ({ st with
              mach := { m2 with ptmem := writePTE m2.ptmem t i (PA2PTE pa ||| perm ||| PTE_V) },
              g_ufree_page := g1 + PGSIZE }, g1)

/-- Index of the first free segment large enough for the request
(the first-fit scan of `user_malloc_small`). -/
def findFitIdx (size : Nat) : List segment_info → Option Nat
  | [] => none
  | p :: rest =>
    if p.occupy = false ∧ size ≤ p.size then some 0
    else (findFitIdx size rest).map (· + 1)

/-- Index of the first segment whose `va` equals the freed address
(the search loop of `user_free`). -/
def findIdxVa (va : Nat) : List segment_info → Option Nat
  | [] => none
  | p :: rest => if p.va = va then some 0 else (findIdxVa va rest).map (· + 1)

/-- Insert `x` immediately after position `k`
(`bid_linked_list_app(found, rest)`). -/
def insertAfter (l : List segment_info) (k : Nat) (x : segment_info) :
    List segment_info := l.take (k + 1) ++ x :: l.drop (k + 1)

/-- The tail of `user_malloc_small` once the segment at index `k` is
chosen: mark it occupied, split off the remainder into a fresh node
inserted right after it when it is strictly larger than the request, and
shrink it to the requested size. -/
def seg_take (st : AllocState) (k size : Nat) : Option (AllocState × Nat) :=
  match st.segs.get? k with
  | none => none
  | some p =>
    if size < p.size then
      match get_segment_info { st with segs := st.segs.set k { p with occupy := true } } with
      | none => none
      | some (st1, rid) =>
        let rest : segment_info := ⟨rid, p.va + size, p.size - size, false⟩
        let st2 := { st1 with segs := insertAfter st1.segs k rest }
        some ({ st2 with segs := st2.segs.set k { p with occupy := true, size := size } }, p.va)
    else
      some ({ st with segs := st.segs.set k { p with occupy := true } }, p.va)

/-- `user_malloc_small(size, perm)` from vmm.c: first-fit scan; on a miss,
acquire a node, push it at the front of the valid list, and back it with a
freshly mapped page spanning segment. -/
def user_malloc_small (st : AllocState) (size perm : Nat) :
    Option (AllocState × Nat) :=
  match findFitIdx size st.segs with
  | some k => seg_take st k size
  | none =>
    match get_segment_info st with
    | none => none
    | some (st1, nid) =>
      match alloc_page_with_vm st1 perm with
      | none => none
      | some (st2, v) =>
        seg_take { st2 with segs := ⟨nid, v, PGSIZE, false⟩ :: st2.segs } 0 size

/-- The allocation loop of `user_malloc_big`: acquire a Page Info node,
link it behind the previous one (`last->next = now`), and back a fresh
virtual page whose address is stored in the node.  The final node's
`next` field is never written. -/
def umb_loop (perm : Nat) : Nat → Option Nat → AllocState → Option AllocState
  | 0, _, _st => some _st
  | n + 1, last, st =>
    match get_page_info st with
    | none => none
    | some (st1, now) =>
      let st2 :=
        match last with
        | none => st1
        | some l =>
          { st1 with piStore := writePI st1.piStore l { readPI st1.piStore l with nxt := now } }
      match alloc_page_with_vm st2 perm with
      | none => none
      | some (st3, v) =>
        umb_loop perm n (some now)
          { st3 with piStore := writePI st3.piStore now { readPI st3.piStore now with va := v } }

/-- The page count computed by `user_malloc_big`:
`int pagenum = (size + PGSIZE + 1) / PGSIZE;`. -/
def big_pagenum (size : Nat) : Nat := (size + PGSIZE + 1) / PGSIZE

/-- `user_malloc_big(size, perm)` from vmm.c: round the cursor up, remember
it as the returned address, then allocate `big_pagenum size` chained
pages. -/
def user_malloc_big (st : AllocState) (size perm : Nat) :
    Option (AllocState × Nat) :=
  let g1 := ROUNDDOWN (st.g_ufree_page + PGSIZE - 1) PGSIZE
  (umb_loop perm (big_pagenum size) none { st with g_ufree_page := g1 }).map
    (fun st' => (st', g1))

/-- `user_malloc(size, perm)` from vmm.c. -/
def user_malloc (st : AllocState) (size perm : Nat) : Option (AllocState × Nat) :=
  if PGSIZE ≤ size then user_malloc_big st size perm else user_malloc_small st size perm

/-- `free_page_by_va(va)` from vmm.c: silent return on a null walk,
otherwise clear `PTE_V` and free the backing physical page.  The fatal
branch (`va >= MAXVA` panic inside `page_walk`) is modelled as a no-op;
it is unreachable in all modelled runs. -/
def free_page_by_va (m : Mach) (pd va : Nat) : Mach :=
  match page_walk m pd va false with
  | PWOut.fatal => m
  | PWOut.null m' => m'
  | PWOut.ok m' t i =>
    let e' := readPTE m'.ptmem t i &&& NOTV
    free_page { m' with ptmem := writePTE m'.ptmem t i e' } (PTE2PA e')

/-- The backward-merge step of `user_free_small`: when the node at `k` has
a predecessor that is not the list head sentinel, lies on the same backing
page and is free, absorb its address and size and release its node to the
pool.  Returns the node's new index. -/
def merge_left (st : AllocState) (k : Nat) : AllocState × Nat :=
  match k, st.segs.get? k, st.segs.get? (k - 1) with
  | kk + 1, some p, some L =>
    if ROUNDDOWN L.va PGSIZE = ROUNDDOWN p.va PGSIZE ∧ L.occupy = false then
      ({ st with
         segs := (st.segs.set (kk + 1) { p with va := L.va, size := p.size + L.size }).eraseIdx kk,
         segEmpty := L.addr :: st.segEmpty }, kk)
    else (st, kk + 1)
  | _, _, _ => (st, k)

/-- The forward-merge step of `user_free_small`: when the node at `k` has a
successor on the same backing page that is free, absorb its size and
release its node to the pool. -/
def merge_right (st : AllocState) (k : Nat) : AllocState :=
  match st.segs.get? k, st.segs.get? (k + 1) with
  | some p, some R =>
    if ROUNDDOWN R.va PGSIZE = ROUNDDOWN p.va PGSIZE ∧ R.occupy = false then
      { st with
        segs := (st.segs.set k { p with size := p.size + R.size }).eraseIdx (k + 1),
        segEmpty := R.addr :: st.segEmpty }
    else st
  | _, _ => st

/-- `user_free_small(p)` from vmm.c, acting on the node at index `k`: mark
it free, merge left then right, and when the merged segment spans exactly
one page unmap and physically free that page (the node itself is not
released). -/
def user_free_small (st : AllocState) (k : Nat) : AllocState :=
  match st.segs.get? k with
  | none => st
  | some p0 =>
    let st1 := { st with segs := st.segs.set k { p0 with occupy := false } }
    let r := merge_left st1 k
    let st3 := merge_right r.1 r.2
    match st3.segs.get? r.2 with
    | none => st3
    | some p =>
      if p.size = PGSIZE then
        { st3 with mach := free_page_by_va st3.mach st3.pagetable p.va }
      else st3

/-- `user_free_big(p)` from vmm.c: walk the `next` chain from slot `a`,
freeing each page and releasing each node (unlinking it from whichever
list holds it).  `fuel` bounds the chain walk; the function is unreachable
in all modelled runs because the valid Page Info list is never populated. -/
def user_free_big (st : AllocState) (a : Nat) : Nat → AllocState
  | 0 => st
  | n + 1 =>
    if a = 0 then st
    else
      let q := readPI st.piStore a
      user_free_big
        { st with
          mach := free_page_by_va st.mach st.pagetable q.va,
          piValid := st.piValid.filter (fun x => x != a),
          piEmpty := a :: st.piEmpty } q.nxt n

/-- The second search loop of `user_free`: scan the valid Page Info list
for a terminal node (`!p->next`) whose `va` matches, and big-free from it.
The C iteration over an intrusive list the body may unlink is modelled as
iteration over the entry-time list; the list is empty in every modelled
run. -/
def uf_big_scan (va : Nat) : List Nat → AllocState → AllocState
  | [], st => st
  | a :: rest, st =>
    let q := readPI st.piStore a
    let st1 := if q.nxt = 0 ∧ q.va = va then user_free_big st a (st.piStore.length + 1) else st
    uf_big_scan va rest st1

/-- `user_free(va)` from vmm.c: small-path free on the first segment whose
address matches, then the (always empty) big-path scan. -/
def user_free (st : AllocState) (va : Nat) : AllocState :=
  let st1 :=
    match findIdxVa va st.segs with
    | some k => user_free_small st k
    | none => st
  uf_big_scan va st1.piValid st1

/-! ## Byte-level model of the pool refill's zero-fill (for claim C5) -/

/-- `memset(dst, 0, n)` over byte-addressed memory. -/
def memset (m : Nat → Nat) (dst n : Nat) : Nat → Nat :=
  fun a => if dst ≤ a ∧ a < dst + n then 0 else m a

/-- The zero-fill `get_element` performs on a freshly allocated pool page:
`memset((void*)pa, 0, sizeof(pa))` — the local `pa` is a `uint64`, so
exactly 8 bytes are cleared, independent of the pool's element size. -/
def get_element_refill_zero (m : Nat → Nat) (pa : Nat) : Nat → Nat :=
  memset m pa 8

/-- Modelled from the spec: the zero-fill scope the spec's acquire()
describes, clearing the whole first element-sized slot of the new page. -/
def refill_zero_claim (m : Nat → Nat) (pa size : Nat) : Nat → Nat :=
  memset m pa size

/-! ## Concrete initial states for trace evaluation -/

/-- A minimal machine: the current root page table is the zeroed page at
address 0, the external allocator hands out pages from `PGSIZE` upward. -/
def mach0 : Mach := ⟨[], PGSIZE, 1000000, []⟩

/-- A minimal allocator state over `mach0`, with the bump cursor at an
arbitrary page-aligned user address and all bookkeeping lists empty, as at
process start. -/
def alloc0 : AllocState := ⟨mach0, 0, 16 * PGSIZE, [], [], [], [], []⟩

/-! ## Observers and predicates used by the theorems -/

/-- The state carried by a successful `map_pages` outcome. -/
def mpState : MPOut → Option Mach
  | MPOut.ok st => some st
  | _ => none

/-- Read off the `next` chain of page-info nodes starting at slot `a`
(fuel-bounded; 0 is the null pointer). -/
def chainFrom (s : List (Nat × page_info_v)) : Nat → Nat → List Nat
  | _, 0 => []
  | a, n + 1 => if a = 0 then [] else a :: chainFrom s (readPI s a).nxt n

/-- Pure replay of the `page_walk` descent on a fixed memory, following
only valid entries (the `alloc = 0` behaviour, with no state to thread). -/
def pwf (m : PTMem) (va : Nat) : Nat → Nat → Option Nat
  | 0, pt => some pt
  | level + 1, pt =>
    let e := readPTE m pt (PX (level + 1) va)
    if e &&& PTE_V ≠ 0 then pwf m va level (PTE2PA e) else none

/-- Location (table page, index) of the level-0 PTE of `va`, when the
translation path exists in memory `m` starting from root `pd`. -/
def leafLoc (m : PTMem) (pd va : Nat) : Option (Nat × Nat) :=
  (pwf m va 2 pd).map (fun t => (t, PX 0 va))

/-- All valid entries of `m` survive unchanged into `m'`. -/
def ValidPreserved (m m' : PTMem) : Prop :=
  ∀ t i, readPTE m t i &&& PTE_V ≠ 0 → readPTE m' t i = readPTE m t i

/-- Every entry of every table page at or above address `n` reads zero
(pages not yet handed out by the bump allocator are untouched). -/
def HighZero (m : PTMem) (n : Nat) : Prop :=
  ∀ t i, n ≤ t → readPTE m t i = 0

/-- Structural well-formedness of the page-table radix tree, witnessed by a
level assignment `lv` on table pages: assigned pages are page-aligned and
below the allocation watermark; every valid entry of a table at level
`l + 1` is exactly a pointer entry to a table at level `l`; the watermark
is page-aligned; and pages beyond the watermark are all-zero. -/
def LvOk (lv : Nat → Option Nat) (st : Mach) : Prop :=
  (∀ t l, lv t = some l → t % PGSIZE = 0 ∧ t + PGSIZE ≤ st.nextPA) ∧
  (∀ t l i, lv t = some (l + 1) → readPTE st.ptmem t i &&& PTE_V ≠ 0 →
    ∃ t', readPTE st.ptmem t i = PA2PTE t' ||| PTE_V ∧ lv t' = some l) ∧
  st.nextPA % PGSIZE = 0 ∧
  HighZero st.ptmem st.nextPA

/-- `lv'` extends the level assignment `lv`. -/
def LvLe (lv lv' : Nat → Option Nat) : Prop :=
  ∀ t l, lv t = some l → lv' t = some l

/-- The machine `st` carries a well-formed page-table tree rooted at `pd`. -/
def WFpt (st : Mach) (pd : Nat) : Prop :=
  ∃ lv, lv pd = some 2 ∧ LvOk lv st

/-! ## Concrete trace states used by the evaluation theorems -/

/-- Read/write user permissions, `prot_to_type(PROT_READ | PROT_WRITE, 1)`. -/
def permRW : Nat := prot_to_type (PROT_READ ||| PROT_WRITE) 1

/-- Execute-only user permissions, `prot_to_type(PROT_EXEC, 1)`. -/
def permX : Nat := prot_to_type PROT_EXEC 1

/-- First small allocation of the C3/C10 scenario:
`user_malloc(64)` from the initial state (small path). -/
def smallTr1 : Option (AllocState × Nat) := user_malloc_small alloc0 64 permRW

/-- State after the first small allocation. -/
def smallSt1 : AllocState := (smallTr1.getD ⟨alloc0, 0⟩).1

/-- Address returned by the first small allocation. -/
def smallVa1 : Nat := (smallTr1.getD ⟨alloc0, 0⟩).2

/-- State after `user_free` of the first small allocation: the two segments
coalesce back to one page-sized free segment. -/
def smallSt2 : AllocState := user_free smallSt1 smallVa1

/-- The re-allocation of the C10 scenario: `user_malloc(64)` again. -/
def smallTr3 : Option (AllocState × Nat) := user_malloc_small smallSt2 64 permRW

/-- State after the re-allocation. -/
def smallSt3 : AllocState := (smallTr3.getD ⟨alloc0, 0⟩).1

/-- Address returned by the re-allocation. -/
def smallVa3 : Nat := (smallTr3.getD ⟨alloc0, 0⟩).2

/-- The big-path trace: `user_malloc(3 * PGSIZE)` from the initial state. -/
def bigTr : Option (AllocState × Nat) := user_malloc_big alloc0 (3 * PGSIZE) permRW

/-- State after the big allocation. -/
def bigSt : AllocState := (bigTr.getD ⟨alloc0, 0⟩).1

/-- Address returned by the big allocation. -/
def bigVa : Nat := (bigTr.getD ⟨alloc0, 0⟩).2

/-- The exec-only mapping of the C4 counterexample:
map one page at va 0 to pa `2 * PGSIZE` with execute-only permissions. -/
def mapXOut : MPOut := map_pages mach0 0 0 PGSIZE (2 * PGSIZE) permX

/-- Machine state after the exec-only mapping. -/
def machX : Mach := (mpState mapXOut).getD mach0

/-- The permission-bit positions of a PTE
(`R | W | X | U | G | A | D`, excluding the validity bit). -/
def PTE_PERM_MASK : Nat :=
  PTE_R ||| PTE_W ||| PTE_X ||| PTE_U ||| PTE_G ||| PTE_A ||| PTE_D

/-- The machine state carried by any `map_pages` outcome. -/
def mpCarried : MPOut → Mach
  | MPOut.fatalRemap st _ _ => st
  | MPOut.fatalWalk st => st
  | MPOut.fail st => st
  | MPOut.ok st => st

/-! ## Theorems -/

/-- C1: claimed — freeing a big allocation through the virtual address of
its chain's terminal Page Info node walks the chain and frees every page
and node.  Evaluation at the failing input: after `user_malloc_big` of
three pages, the terminal node of the chain holds `bigVa + 3 * PGSIZE`
and has no successor, yet `user_free` at exactly that address leaves the
whole allocator state unchanged — no page is unmapped, nothing is freed,
no node is released — because the append to the valid Page Info list in
`get_element` is commented out, so the search loop of `user_free` scans
an empty list. -/
theorem c1_big_free_terminal_noop :
    bigTr.isSome = true ∧
    (readPI bigSt.piStore 8016).nxt = 0 ∧
    (readPI bigSt.piStore 8016).va = bigVa + 3 * PGSIZE ∧
    bigSt.piValid = [] ∧
    user_free bigSt (bigVa + 3 * PGSIZE) = bigSt ∧
    bigSt.mach.freed = [] := by decide

/-- C2: claimed — `user_malloc(3 * PGSIZE)` allocates exactly
`ceil(size / PGSIZE) = 3` pages and chains exactly 3 Page Info nodes,
advancing the cursor by 3 pages.  Evaluation at the failing input: the
source computes `pagenum = (size + PGSIZE + 1) / PGSIZE = 4`, not the
ceiling 3, so 4 nodes are chained, 4 pool slots are consumed and the
cursor advances by 4 pages. -/
theorem c2_big_malloc_four_pages :
    user_malloc alloc0 (3 * PGSIZE) permRW = bigTr ∧
    bigTr.isSome = true ∧
    big_pagenum (3 * PGSIZE) = 4 ∧
    (3 * PGSIZE + PGSIZE - 1) / PGSIZE = 3 ∧
    chainFrom bigSt.piStore 8136 10 = [8136, 8096, 8056, 8016] ∧
    (chainFrom bigSt.piStore 8136 10).map (fun a => (readPI bigSt.piStore a).va) =
      [bigVa, bigVa + PGSIZE, bigVa + 2 * PGSIZE, bigVa + 3 * PGSIZE] ∧
    bigSt.piEmpty.length + 4 = PGSIZE / sizeof_page_info ∧
    bigSt.g_ufree_page = alloc0.g_ufree_page + 4 * PGSIZE := by decide

/-- C3: claimed — small-path free of a segment that coalesces to exactly
one page unmaps and physically frees the backing page and releases the
segment node.  Evaluation at the failing input: after `user_malloc(64)`
and `user_free` of it, the two segments merge to one page-sized free
segment and the backing page is unmapped and freed, but the merged node
(slot 8160) stays on the valid segment list and is never pushed onto the
pool's empty list — only the absorbed remainder node is released. -/
theorem c3_small_free_keeps_node :
    smallTr1.isSome = true ∧
    smallSt1.segs = [⟨8160, smallVa1, 64, true⟩,
                     ⟨8128, smallVa1 + 64, PGSIZE - 64, false⟩] ∧
    smallSt2.segs = [⟨8160, smallVa1, PGSIZE, false⟩] ∧
    smallSt2.segEmpty.length = smallSt1.segEmpty.length + 1 ∧
    8160 ∉ smallSt2.segEmpty ∧
    smallSt2.mach.freed = [2 * PGSIZE] ∧
    lookup_pa smallSt2.mach smallSt2.pagetable smallVa1 = 0 := by decide

/-- C4 counterexample: claimed — after `map_pages`, `lookup_pa` at a mapped
page boundary returns the physical address even for execute-only
permission sets.  At the concrete input (map va 0 to pa `2 * PGSIZE` with
`prot_to_type(PROT_EXEC, 1)`), the mapping succeeds and the entry holds
exactly the requested bits, yet `lookup_pa` returns 0, not `2 * PGSIZE`,
because it rejects entries carrying neither R nor W. -/
theorem c4_exec_only_counterexample :
    mapXOut = MPOut.ok machX ∧
    leafLoc machX.ptmem 0 0 = some (8192, 0) ∧
    readPTE machX.ptmem 8192 0 = PA2PTE (2 * PGSIZE) ||| permX ||| PTE_V ∧
    lookup_pa machX 0 0 = 0 ∧
    2 * PGSIZE ≠ 0 := by decide

/-- C5 counterexample: claimed — when the pool free list is empty,
`get_element` zeroes the whole first element-sized slot of the fresh page
before carving it.  At the concrete input (byte 8 of a page whose prior
contents are all 1), the claimed zero-fill clears the byte but the
source's `memset((void*)pa, 0, sizeof(pa))` leaves it untouched, since
`sizeof(pa)` is 8 while both pool element sizes exceed 8. -/
theorem c5_zero_fill_counterexample :
    get_element_refill_zero (fun _ => 1) 0 8 = 1 ∧
    refill_zero_claim (fun _ => 1) 0 sizeof_page_info 8 = 0 ∧
    refill_zero_claim (fun _ => 1) 0 sizeof_segment_info 8 = 0 ∧
    8 < sizeof_page_info ∧ 8 < sizeof_segment_info := by decide

/-- C5 (amended): when the pool free list is empty, `get_element` zeroes
only the first 8 bytes of the freshly allocated page — the `sizeof` of
the local `pa` variable, not an element-sized slot — before carving it
into fixed-size entries. -/
theorem c5_refill_zeroes_exactly_eight_bytes (m : Nat → Nat) (pa a : Nat) :
    get_element_refill_zero m pa a = if pa ≤ a ∧ a < pa + 8 then 0 else m a := rfl

/-- A segment search for an address matching no segment finds nothing. -/
theorem findIdxVa_eq_none (va : Nat) (l : List segment_info)
    (h : ∀ s ∈ l, s.va ≠ va) : findIdxVa va l = none := by
  induction l with
  | nil => rfl
  | cons p rest ih =>
    have hp : p.va ≠ va := h p (by simp)
    simp only [findIdxVa, if_neg hp]
    rw [ih (fun s hs => h s (by simp [hs]))]
    rfl

/-- The big-free scan is a no-op when no listed node is a terminal node
with the requested address. -/
theorem uf_big_scan_noop (va : Nat) (l : List Nat) (st : AllocState)
    (h : ∀ a ∈ l, ¬((readPI st.piStore a).nxt = 0 ∧ (readPI st.piStore a).va = va)) :
    uf_big_scan va l st = st := by
  induction l with
  | nil => rfl
  | cons a rest ih =>
    have ha := h a (by simp)
    simp only [uf_big_scan, if_neg ha]
    exact ih (fun b hb => h b (by simp [hb]))

/-- C8: `user_free` of an address that is neither the address of any
segment on the valid Segment Info list nor the address of any terminal
Page Info node on the valid Page Info list is a silent no-op: the whole
allocator state — segment list, chains, pools, page table and bump
cursor — is returned unchanged. -/
theorem c8_free_not_found_noop (st : AllocState) (va : Nat)
    (h1 : ∀ s ∈ st.segs, s.va ≠ va)
    (h2 : ∀ a ∈ st.piValid,
      ¬((readPI st.piStore a).nxt = 0 ∧ (readPI st.piStore a).va = va)) :
    user_free st va = st := by
  unfold user_free
  rw [findIdxVa_eq_none va st.segs h1]
  exact uf_big_scan_noop va st.piValid st h2

/-- Witness for C8 at a concrete input: in the state after the first small
allocation, freeing an address that matches no segment changes nothing. -/
theorem c8_free_not_found_noop_witness :
    user_free smallSt1 (smallVa1 + 8) = smallSt1 :=
  c8_free_not_found_noop smallSt1 (smallVa1 + 8) (by decide) (by decide)


/-- Rounding `a + PGSIZE - 1` down to a page boundary never goes below
`a`: the round-up step of the cursor cannot decrease it. -/
theorem roundup_ge (a : Nat) : a ≤ ROUNDDOWN (a + PGSIZE - 1) PGSIZE := by
  unfold ROUNDDOWN PGSIZE
  have h1 := Nat.div_add_mod (a + 4096 - 1) 4096
  have h2 : (a + 4096 - 1) % 4096 < 4096 := Nat.mod_lt _ (by omega)
  omega

/-- `alloc_page_with_vm` hands out a fresh page at or above the old cursor
and leaves the cursor exactly one page past it. -/
theorem alloc_page_with_vm_cursor (st : AllocState) (perm : Nat)
    (st' : AllocState) (v : Nat)
    (h : alloc_page_with_vm st perm = some (st', v)) :
    st.g_ufree_page ≤ v ∧ st'.g_ufree_page = v + PGSIZE := by
  unfold alloc_page_with_vm at h
  cases ha : alloc_page st.mach with
  | none => simp [ha] at h
  | some m1pa =>
    simp only [ha] at h
    cases hw : page_walk m1pa.1 st.pagetable
        (ROUNDDOWN (st.g_ufree_page + PGSIZE - 1) PGSIZE) true with
    | fatal => simp [hw] at h
    | null s => simp [hw] at h
    | ok m2 t i =>
      simp only [hw, Option.some.injEq, Prod.mk.injEq] at h
      rcases h with ⟨hst, hv⟩
      subst hv
      exact ⟨roundup_ge _, by rw [← hst]⟩

/-- `get_segment_info` never moves the cursor, root table or segment
list. -/
theorem get_segment_info_frame (st : AllocState) (st' : AllocState) (r : Nat)
    (h : get_segment_info st = some (st', r)) :
    st'.g_ufree_page = st.g_ufree_page ∧ st'.pagetable = st.pagetable ∧
      st'.segs = st.segs := by
  unfold get_segment_info at h
  cases hg : get_element st.mach st.segEmpty sizeof_segment_info with
  | none => simp [hg] at h
  | some x =>
    simp only [hg, Option.map_some', Option.some.injEq, Prod.mk.injEq] at h
    rw [← h.1]
    exact ⟨rfl, rfl, rfl⟩

/-- `get_page_info` never moves the cursor. -/
theorem get_page_info_frame (st : AllocState) (st' : AllocState) (r : Nat)
    (h : get_page_info st = some (st', r)) :
    st'.g_ufree_page = st.g_ufree_page := by
  unfold get_page_info at h
  cases hg : get_element st.mach st.piEmpty sizeof_page_info with
  | none => simp [hg] at h
  | some x =>
    simp only [hg, Option.map_some', Option.some.injEq, Prod.mk.injEq] at h
    rw [← h.1]

/-- `seg_take` never moves the cursor. -/
theorem seg_take_cursor (st : AllocState) (k size : Nat)
    (st' : AllocState) (v : Nat) (h : seg_take st k size = some (st', v)) :
    st'.g_ufree_page = st.g_ufree_page := by
  unfold seg_take at h
  simp only [List.get?_eq_getElem?] at h
  cases hp : st.segs[k]? with
  | none => simp [hp] at h
  | some p =>
    simp only [hp] at h
    by_cases hs : size < p.size
    · rw [if_pos hs] at h
      cases hg : get_segment_info
          { st with segs := st.segs.set k { p with occupy := true } } with
      | none => simp [hg] at h
      | some x =>
        simp only [hg, Option.some.injEq, Prod.mk.injEq] at h
        have := (get_segment_info_frame _ _ _ hg).1
        rw [← h.1]
        exact this
    · rw [if_neg hs] at h
      simp only [Option.some.injEq, Prod.mk.injEq] at h
      rw [← h.1]

/-- `user_malloc_small` never decreases the cursor. -/
theorem user_malloc_small_cursor (st : AllocState) (size perm : Nat)
    (st' : AllocState) (v : Nat)
    (h : user_malloc_small st size perm = some (st', v)) :
    st.g_ufree_page ≤ st'.g_ufree_page := by
  unfold user_malloc_small at h
  cases hf : findFitIdx size st.segs with
  | some k =>
    simp only [hf] at h
    rw [seg_take_cursor _ _ _ _ _ h]
  | none =>
    simp only [hf] at h
    cases hg : get_segment_info st with
    | none => simp [hg] at h
    | some x =>
      simp only [hg] at h
      cases ha : alloc_page_with_vm x.1 perm with
      | none => simp [ha] at h
      | some y =>
        simp only [ha] at h
        have h1 := (get_segment_info_frame _ _ _ hg).1
        have h2 := alloc_page_with_vm_cursor _ _ _ _ ha
        have h3 := seg_take_cursor _ _ _ _ _ h
        rw [h3]
        have h4 : ({ y.1 with segs := ⟨x.2, y.2, PGSIZE, false⟩ :: y.1.segs } :
            AllocState).g_ufree_page = y.1.g_ufree_page := rfl
        rw [h4]
        omega

/-- The big-allocation loop never decreases the cursor. -/
theorem umb_loop_cursor (perm : Nat) (n : Nat) :
    ∀ (last : Option Nat) (st st' : AllocState),
      umb_loop perm n last st = some st' →
      st.g_ufree_page ≤ st'.g_ufree_page := by
  induction n with
  | zero =>
    intro last st st' h
    simp only [umb_loop, Option.some.injEq] at h
    rw [h]
  | succ n ih =>
    intro last st st' h
    unfold umb_loop at h
    cases hg : get_page_info st with
    | none => simp [hg] at h
    | some x =>
      simp only [hg] at h
      have h1 := get_page_info_frame _ _ _ hg
      cases last with
      | none =>
        simp only at h
        cases ha : alloc_page_with_vm x.1 perm with
        | none => simp [ha] at h
        | some y =>
          simp only [ha] at h
          have h2 := alloc_page_with_vm_cursor _ _ _ _ ha
          have h3 := ih _ _ _ h
          have h4 : ({ y.1 with piStore := writePI y.1.piStore x.2 { readPI y.1.piStore x.2 with va := y.2 } } : AllocState).g_ufree_page = y.1.g_ufree_page := rfl
          rw [h4] at h3
          omega
      | some l =>
        simp only at h
        cases ha : alloc_page_with_vm { x.1 with piStore := writePI x.1.piStore l { readPI x.1.piStore l with nxt := x.2 } } perm with
        | none => simp [ha] at h
        | some y =>
          simp only [ha] at h
          have h2 := alloc_page_with_vm_cursor _ _ _ _ ha
          have h3 := ih _ _ _ h
          have h4 : ({ y.1 with piStore := writePI y.1.piStore x.2 { readPI y.1.piStore x.2 with va := y.2 } } : AllocState).g_ufree_page = y.1.g_ufree_page := rfl
          have h5 : ({ x.1 with piStore := writePI x.1.piStore l { readPI x.1.piStore l with nxt := x.2 } } : AllocState).g_ufree_page = x.1.g_ufree_page := rfl
          rw [h4] at h3
          rw [h5] at h2
          omega

/-- `user_malloc_big` never decreases the cursor. -/
theorem user_malloc_big_cursor (st : AllocState) (size perm : Nat)
    (st' : AllocState) (v : Nat)
    (h : user_malloc_big st size perm = some (st', v)) :
    st.g_ufree_page ≤ st'.g_ufree_page := by
  unfold user_malloc_big at h
  simp only at h
  cases hu : umb_loop perm (big_pagenum size) none
      { st with g_ufree_page := ROUNDDOWN (st.g_ufree_page + PGSIZE - 1) PGSIZE }
      with
  | none => simp [hu] at h
  | some x =>
    simp only [hu, Option.map_some', Option.some.injEq, Prod.mk.injEq] at h
    have h1 := umb_loop_cursor _ _ _ _ _ hu
    have h2 := roundup_ge st.g_ufree_page
    have h3 : ({ st with g_ufree_page := ROUNDDOWN (st.g_ufree_page + PGSIZE - 1) PGSIZE } : AllocState).g_ufree_page = ROUNDDOWN (st.g_ufree_page + PGSIZE - 1) PGSIZE := rfl
    rw [h3] at h1
    rw [← h.1]
    omega

/-- `merge_left` never moves the cursor. -/
theorem merge_left_cursor (st : AllocState) (k : Nat) :
    (merge_left st k).1.g_ufree_page = st.g_ufree_page := by
  unfold merge_left
  split
  · split <;> rfl
  · rfl

/-- `merge_right` never moves the cursor. -/
theorem merge_right_cursor (st : AllocState) (k : Nat) :
    (merge_right st k).g_ufree_page = st.g_ufree_page := by
  unfold merge_right
  split
  · split <;> rfl
  · rfl

/-- `user_free_small` never moves the cursor. -/
theorem user_free_small_cursor (st : AllocState) (k : Nat) :
    (user_free_small st k).g_ufree_page = st.g_ufree_page := by
  unfold user_free_small
  split
  · rfl
  · dsimp only
    split
    · exact (merge_right_cursor _ _).trans (merge_left_cursor _ _)
    · split
      · exact (merge_right_cursor _ _).trans (merge_left_cursor _ _)
      · exact (merge_right_cursor _ _).trans (merge_left_cursor _ _)

/-- `user_free_big` never moves the cursor. -/
theorem user_free_big_cursor (n : Nat) :
    ∀ (st : AllocState) (a : Nat),
      (user_free_big st a n).g_ufree_page = st.g_ufree_page := by
  induction n with
  | zero => intro st a; rfl
  | succ n ih =>
    intro st a
    unfold user_free_big
    by_cases ha : a = 0
    · rw [if_pos ha]
    · rw [if_neg ha]
      rw [ih]

/-- The big-free scan never moves the cursor. -/
theorem uf_big_scan_cursor (va : Nat) (l : List Nat) :
    ∀ (st : AllocState), (uf_big_scan va l st).g_ufree_page = st.g_ufree_page := by
  induction l with
  | nil => intro st; rfl
  | cons a rest ih =>
    intro st
    unfold uf_big_scan
    rw [ih]
    by_cases hc : (readPI st.piStore a).nxt = 0 ∧ (readPI st.piStore a).va = va
    · rw [if_pos hc]
      rw [user_free_big_cursor]
    · rw [if_neg hc]

/-- `user_free` never moves the cursor. -/
theorem user_free_cursor (st : AllocState) (va : Nat) :
    (user_free st va).g_ufree_page = st.g_ufree_page := by
  unfold user_free
  cases hf : findIdxVa va st.segs with
  | none => simp only; rw [uf_big_scan_cursor]
  | some k => simp only; rw [uf_big_scan_cursor, user_free_small_cursor]

/-- C9: the free-virtual-address bump cursor `g_ufree_page` is
monotonically non-decreasing across every allocator operation —
`user_malloc` (both paths) never decreases it and `user_free` leaves it
unchanged — and every fresh virtual page handed out by
`alloc_page_with_vm` lies in the half-open cursor interval
`[old cursor, new cursor)` with the new cursor one page beyond it, so
cursor intervals of successive hand-outs are disjoint and a virtual page
once handed out is never handed out again as a fresh page. -/
theorem c9_cursor_monotone (st : AllocState) :
    (∀ size perm st' v, user_malloc st size perm = some (st', v) →
      st.g_ufree_page ≤ st'.g_ufree_page) ∧
    (∀ va, (user_free st va).g_ufree_page = st.g_ufree_page) ∧
    (∀ perm st' v, alloc_page_with_vm st perm = some (st', v) →
      st.g_ufree_page ≤ v ∧ st'.g_ufree_page = v + PGSIZE) := by
  refine ⟨?_, ?_, ?_⟩
  · intro size perm st' v h
    unfold user_malloc at h
    by_cases hs : PGSIZE ≤ size
    · rw [if_pos hs] at h
      exact user_malloc_big_cursor _ _ _ _ _ h
    · rw [if_neg hs] at h
      exact user_malloc_small_cursor _ _ _ _ _ h
  · intro va
    exact user_free_cursor st va
  · intro perm st' v h
    exact alloc_page_with_vm_cursor _ _ _ _ h

/-- Witness for C9 at concrete inputs: the small allocation, a free and a
fresh-page hand-out from the initial state respect the cursor bounds. -/
theorem c9_cursor_monotone_witness :
    alloc0.g_ufree_page ≤ smallSt1.g_ufree_page ∧
    (user_free smallSt1 smallVa1).g_ufree_page = smallSt1.g_ufree_page ∧
    (alloc0.g_ufree_page ≤ ((alloc_page_with_vm alloc0 permRW).getD ⟨alloc0, 0⟩).2 ∧
      ((alloc_page_with_vm alloc0 permRW).getD ⟨alloc0, 0⟩).1.g_ufree_page =
        ((alloc_page_with_vm alloc0 permRW).getD ⟨alloc0, 0⟩).2 + PGSIZE) :=
  ⟨(c9_cursor_monotone alloc0).1 64 permRW smallSt1 smallVa1 (by decide),
   (c9_cursor_monotone smallSt1).2.1 smallVa1,
   (c9_cursor_monotone alloc0).2.2 permRW
     ((alloc_page_with_vm alloc0 permRW).getD ⟨alloc0, 0⟩).1
     ((alloc_page_with_vm alloc0 permRW).getD ⟨alloc0, 0⟩).2 (by decide)⟩

/-! ## Bit-level lemmas about the PTE encoding -/

/-- Bitwise or is addition when the high part is a multiple of `2 ^ k` and
the low part fits in `k` bits. -/
theorem lor_eq_add (k a b : Nat) (ha : a % 2 ^ k = 0) (hb : b < 2 ^ k) :
    a ||| b = a + b := by
  obtain ⟨c, hc⟩ := Nat.dvd_of_mod_eq_zero ha
  subst hc
  exact (Nat.mul_add_lt_is_or hb c).symm

/-- `PA2PTE` always produces a multiple of 1024. -/
theorem PA2PTE_mod (pa : Nat) : PA2PTE pa % 2 ^ 10 = 0 := by
  unfold PA2PTE
  omega

/-- Setting the validity bit makes the entry pass the `& PTE_V` test. -/
theorem or_V_test (x : Nat) : (x ||| PTE_V) &&& PTE_V ≠ 0 := by
  unfold PTE_V
  rw [Nat.and_one_is_mod]
  simp [Nat.or_mod_two_eq_one]

/-- The shape of a leaf or pointer PTE as a plain sum: provided the
permission part is even and below 256, `PA2PTE pa ||| perm ||| PTE_V`
equals `PA2PTE pa + perm + 1`. -/
theorem entry_eq_add (pa perm : Nat) (hev : perm % 2 = 0) (hlt : perm < 256) :
    PA2PTE pa ||| perm ||| PTE_V = PA2PTE pa + perm + 1 := by
  unfold PTE_V
  rw [lor_eq_add 10 (PA2PTE pa) perm (PA2PTE_mod pa) (by omega)]
  rw [lor_eq_add 1 (PA2PTE pa + perm) 1 (by
    have := PA2PTE_mod pa
    omega) (by omega)]

/-- `PTE2PA` recovers the page-aligned physical address from an entry. -/
theorem PTE2PA_entry (pa perm : Nat) (hpa : pa % PGSIZE = 0)
    (hev : perm % 2 = 0) (hlt : perm < 256) :
    PTE2PA (PA2PTE pa ||| perm ||| PTE_V) = pa := by
  rw [entry_eq_add pa perm hev hlt]
  unfold PTE2PA PA2PTE
  unfold PGSIZE at hpa
  have h1 : pa / 4096 * 1024 = 1024 * (pa / 4096) := by ring
  rw [h1, Nat.add_assoc, Nat.mul_add_div (by omega)]
  have h2 : (perm + 1) / 1024 = 0 := Nat.div_eq_of_lt (by omega)
  rw [h2, Nat.add_zero]
  omega

/-- `PTE2PA` recovers the table address from a pointer entry installed by
`page_walk`. -/
theorem PTE2PA_ptr (t : Nat) (ht : t % PGSIZE = 0) :
    PTE2PA (PA2PTE t ||| PTE_V) = t := by
  have h := PTE2PA_entry t 0 ht (by omega) (by omega)
  simpa using h

/-- A pointer entry passes the validity test. -/
theorem ptr_V_test (t : Nat) : (PA2PTE t ||| PTE_V) &&& PTE_V ≠ 0 :=
  or_V_test (PA2PTE t)

/-- A leaf entry passes the validity test. -/
theorem leaf_V_test (pa perm : Nat) :
    (PA2PTE pa ||| perm ||| PTE_V) &&& PTE_V ≠ 0 :=
  or_V_test (PA2PTE pa ||| perm)

/-- Masking only looks at the low bits: for a mask below `2 ^ k`, `&&&`
factors through `% 2 ^ k`. -/
theorem and_low (x m k : Nat) (hm : m < 2 ^ k) :
    x &&& m = x % 2 ^ k &&& m := by
  apply Nat.eq_of_testBit_eq
  intro i
  rw [Nat.testBit_and, Nat.testBit_and, Nat.testBit_mod_two_pow]
  rcases Nat.lt_or_ge i k with hik | hik
  · simp [hik]
  · have hmi : m.testBit i = false :=
      Nat.testBit_lt_two_pow (lt_of_lt_of_le hm (Nat.pow_le_pow_right (by omega) hik))
    simp [hmi]

/-- The permission bits stored in a freshly installed leaf entry are
exactly the requested ones, provided they are even, below 256 and within
the permission mask. -/
theorem entry_perm_readback (pa perm : Nat) (hev : perm % 2 = 0)
    (hlt : perm < 256) (hself : perm &&& PTE_PERM_MASK = perm) :
    (PA2PTE pa ||| perm ||| PTE_V) &&& PTE_PERM_MASK = perm := by
  have hmask : PTE_PERM_MASK = 254 := by decide
  rw [entry_eq_add pa perm hev hlt, hmask]
  rw [and_low _ 254 10 (by omega)]
  have h1 : (PA2PTE pa + perm + 1) % 2 ^ 10 = perm + 1 := by
    have := PA2PTE_mod pa
    omega
  rw [h1]
  have h2 : perm + 1 = perm ||| 1 :=
    (lor_eq_add 1 perm 1 (by omega) (by omega)).symm
  rw [h2, Nat.and_distrib_right]
  have h3 : (1 : Nat) &&& 254 = 0 := by decide
  rw [h3, ← hmask, hself]
  simp

/-- The facts `map_pages` proofs need about `prot_to_type`'s output: it is
even, below 256, and lies within the permission mask. -/
theorem prot_to_type_facts (prot user : Nat) :
    prot_to_type prot user % 2 = 0 ∧ prot_to_type prot user < 256 ∧
      prot_to_type prot user &&& PTE_PERM_MASK = prot_to_type prot user := by
  unfold prot_to_type
  split_ifs <;> exact ⟨by decide, by decide, by decide⟩

/-! ## Memory and walk lemmas -/

/-- Reading after a store hits the stored value at the written location
and falls through elsewhere. -/
theorem readPTE_write (m : PTMem) (t i v t' i' : Nat) :
    readPTE (writePTE m t i v) t' i' =
      if t = t' ∧ i = i' then v else readPTE m t' i' := rfl

/-- Reading after a page erase yields zero on the erased table and is
unchanged elsewhere. -/
theorem readPTE_erase (m : PTMem) (f t i : Nat) :
    readPTE (erasePage m f) t i = if t = f then 0 else readPTE m t i := by
  induction m with
  | nil =>
    simp only [erasePage, readPTE]
    split <;> rfl
  | cons e m ih =>
    obtain ⟨⟨t0, i0⟩, v⟩ := e
    simp only [erasePage]
    by_cases h0 : t0 = f
    · rw [if_pos h0, ih]
      by_cases ht : t = f
      · rw [if_pos ht, if_pos ht]
      · rw [if_neg ht, if_neg ht]
        simp only [readPTE]
        have : ¬(t0 = t ∧ i0 = i) := by
          intro hc
          exact ht (hc.1 ▸ h0 ▸ rfl)
        rw [if_neg this]
    · rw [if_neg h0]
      simp only [readPTE]
      by_cases hh : t0 = t ∧ i0 = i
      · rw [if_pos hh, if_pos hh]
        have ht : t ≠ f := fun hc => h0 (hh.1.symm ▸ hc)
        rw [if_neg ht]
      · rw [if_neg hh, if_neg hh, ih]

/-- Writing to a currently invalid entry preserves every valid entry. -/
theorem ValidPreserved_write (m : PTMem) (tw iw v : Nat)
    (h : readPTE m tw iw &&& PTE_V = 0) :
    ValidPreserved m (writePTE m tw iw v) := by
  intro t i hv
  rw [readPTE_write]
  by_cases hc : tw = t ∧ iw = i
  · rcases hc with ⟨rfl, rfl⟩
    exact absurd h hv
  · rw [if_neg hc]

/-- Erasing an all-zero table page preserves every valid entry. -/
theorem ValidPreserved_erase (m : PTMem) (f : Nat)
    (h : ∀ i, readPTE m f i = 0) :
    ValidPreserved m (erasePage m f) := by
  intro t i hv
  rw [readPTE_erase]
  by_cases hc : t = f
  · subst hc
    rw [h i] at hv
    simp at hv
  · rw [if_neg hc]

/-- Valid-entry preservation composes. -/
theorem ValidPreserved_trans (m1 m2 m3 : PTMem)
    (h12 : ValidPreserved m1 m2) (h23 : ValidPreserved m2 m3) :
    ValidPreserved m1 m3 := by
  intro t i hv
  rw [h23 t i (by rw [h12 t i hv]; exact hv), h12 t i hv]

/-- The pure walk only reads valid entries, so it is stable under any
modification that preserves them. -/
theorem pwf_mono (m m' : PTMem) (va : Nat) (hp : ValidPreserved m m') :
    ∀ n pt t0, pwf m va n pt = some t0 → pwf m' va n pt = some t0 := by
  intro n
  induction n with
  | zero => intro pt t0 h; exact h
  | succ n ih =>
    intro pt t0 h
    unfold pwf at h ⊢
    simp only at h ⊢
    by_cases hv : readPTE m pt (PX (n + 1) va) &&& PTE_V ≠ 0
    · rw [if_pos hv] at h
      rw [hp _ _ hv, if_pos hv]
      exact ih _ _ h
    · rw [if_neg hv] at h
      exact absurd h (by simp)

/-- With allocation disabled, the walk loop is the pure walk and the
machine state is untouched. -/
theorem pw_loop_false (va : Nat) :
    ∀ n (st : Mach) (pt : Nat),
      pw_loop va false n st pt =
        match pwf st.ptmem va n pt with
        | some t0 => PWRes.ok st t0
        | none => PWRes.fail st := by
  intro n
  induction n with
  | zero => intro st pt; rfl
  | succ n ih =>
    intro st pt
    unfold pw_loop pwf
    simp only
    by_cases hv : readPTE st.ptmem pt (PX (n + 1) va) &&& PTE_V ≠ 0
    · rw [if_pos hv, if_pos hv, ih]
    · rw [if_neg hv, if_neg hv]
      simp

/-- Central lemma about `page_walk`'s descent with allocation enabled on a
well-formed tree: a successful walk extends the level assignment, keeps
the tree well-formed, lands in a level-0 table, preserves every valid
entry and every entry of every level-0 table, retraces purely on the
final memory, and does not free anything. -/
theorem pw_ok_lv (va : Nat) :
    ∀ (n : Nat) (st : Mach) (pt : Nat) (lv : Nat → Option Nat)
      (st' : Mach) (t0 : Nat),
      LvOk lv st → lv pt = some n →
      pw_loop va true n st pt = PWRes.ok st' t0 →
      ∃ lv', LvLe lv lv' ∧ LvOk lv' st' ∧ lv' t0 = some 0 ∧
        st.nextPA ≤ st'.nextPA ∧
        ValidPreserved st.ptmem st'.ptmem ∧
        (∀ t i, lv t = some 0 → readPTE st'.ptmem t i = readPTE st.ptmem t i) ∧
        pwf st'.ptmem va n pt = some t0 ∧
        st'.freed = st.freed := by
  intro n
  induction n with
  | zero =>
    intro st pt lv st' t0 hok hpt h
    simp only [pw_loop] at h
    cases h
    exact ⟨lv, fun _ _ hh => hh, hok, hpt, Nat.le_refl _,
      fun _ _ _ => rfl, fun _ _ _ => rfl, rfl, rfl⟩
  | succ n ih =>
    intro st pt lv st' t0 hok hpt h
    unfold pw_loop at h
    by_cases hv : readPTE st.ptmem pt (PX (n + 1) va) &&& PTE_V ≠ 0
    · -- follow the existing pointer entry
      rw [if_pos hv] at h
      obtain ⟨t', he, hlvt'⟩ := hok.2.1 pt n _ hpt hv
      have ht'al : t' % PGSIZE = 0 := (hok.1 t' n hlvt').1
      have hnext : PTE2PA (readPTE st.ptmem pt (PX (n + 1) va)) = t' := by
        rw [he]; exact PTE2PA_ptr t' ht'al
      rw [hnext] at h
      obtain ⟨lv', hle, hok', ht0, hpa, hpres, hlv0, hpwf, hfr⟩ :=
        ih st t' lv st' t0 hok hlvt' h
      refine ⟨lv', hle, hok', ht0, hpa, hpres, hlv0, ?_, hfr⟩
      unfold pwf
      simp only
      rw [hpres _ _ hv, if_pos hv, hnext]
      exact hpwf
    · -- allocate a fresh intermediate table
      rw [if_neg hv] at h
      simp only [if_pos rfl] at h
      unfold alloc_page at h
      by_cases hav : st.avail = 0
      · rw [if_pos hav] at h
        simp at h
      · rw [if_neg hav] at h
        simp only at h
        set f := st.nextPA with hf
        set st2 : Mach :=
          { ptmem := writePTE (erasePage st.ptmem f) pt (PX (n + 1) va)
              (PA2PTE f ||| PTE_V),
            nextPA := st.nextPA + PGSIZE,
            avail := st.avail - 1,
            freed := st.freed } with hst2
        have hstep : pw_loop va true n st2 f = PWRes.ok st' t0 := h
        have hptb := hok.1 pt (n + 1) hpt
        have hptf : pt ≠ f := by
          unfold PGSIZE at hptb
          omega
        have hfz : ∀ i, readPTE st.ptmem f i = 0 := fun i =>
          hok.2.2.2 f i (Nat.le_refl _)
        have hfnotlv : ∀ l, lv f ≠ some l := by
          intro l hc
          have := (hok.1 f l hc).2
          unfold PGSIZE at this
          omega
        set lv1 : Nat → Option Nat :=
          fun t => if t = f then some n else lv t with hlv1
        have hlv1f : lv1 f = some n := by simp [hlv1]
        have hle1 : LvLe lv lv1 := by
          intro t l hl
          have : t ≠ f := fun hc => hfnotlv l (hc ▸ hl)
          simp only [hlv1, if_neg this]
          exact hl
        have hok1 : LvOk lv1 st2 := by
          refine ⟨?_, ?_, ?_, ?_⟩
          · intro t l hl
            by_cases htf : t = f
            · subst htf
              simp only [hlv1, if_pos rfl, Option.some.injEq] at hl
              refine ⟨hok.2.2.1, ?_⟩
              simp [hst2]
            · simp only [hlv1, if_neg htf] at hl
              have := hok.1 t l hl
              constructor
              · exact this.1
              · simp only [hst2]
                omega
          · intro t l i hl hvv
            have hread : readPTE st2.ptmem t i =
                if pt = t ∧ PX (n + 1) va = i then PA2PTE f ||| PTE_V
                else if t = f then 0 else readPTE st.ptmem t i := by
              simp only [hst2, readPTE_write, readPTE_erase]
            by_cases hhit : pt = t ∧ PX (n + 1) va = i
            · rw [hread, if_pos hhit] at hvv ⊢
              have htne : t ≠ f := hhit.1 ▸ hptf
              have hlt : lv1 t = some (n + 1) := by
                simp only [hlv1, if_neg htne]
                exact hhit.1 ▸ hpt
              rw [hl] at hlt
              have hln : l = n := by
                simpa using hlt
              exact ⟨f, rfl, by rw [hln]; exact hlv1f⟩
            · rw [hread, if_neg hhit] at hvv ⊢
              by_cases htf : t = f
              · rw [if_pos htf] at hvv
                simp at hvv
              · rw [if_neg htf] at hvv ⊢
                have hlt : lv t = some (l + 1) := by
                  simpa [hlv1, htf] using hl
                obtain ⟨t', he, hlvt'⟩ := hok.2.1 t l i hlt hvv
                have ht'f : t' ≠ f := by
                  intro hc
                  exact hfnotlv l (hc ▸ hlvt')
                exact ⟨t', he, by simp [hlv1, ht'f, hlvt']⟩
          · simp only [hst2]
            have := hok.2.2.1
            unfold PGSIZE at *
            omega
          · intro t i hge
            simp only [hst2] at hge ⊢
            rw [readPTE_write]
            have h1 : ¬(pt = t ∧ PX (n + 1) va = i) := by
              rintro ⟨hc1, hc2⟩
              rw [← hc1] at hge
              unfold PGSIZE at hptb hge
              omega
            rw [if_neg h1, readPTE_erase]
            have h2 : t ≠ f := by
              unfold PGSIZE at hge
              omega
            rw [if_neg h2]
            exact hok.2.2.2 t i (by unfold PGSIZE at hge; omega)
        have hpres2 : ValidPreserved st.ptmem st2.ptmem := by
          have he1 : ValidPreserved st.ptmem (erasePage st.ptmem f) :=
            ValidPreserved_erase st.ptmem f hfz
          have hw1 : ValidPreserved (erasePage st.ptmem f) st2.ptmem := by
            apply ValidPreserved_write
            rw [readPTE_erase, if_neg hptf]
            simpa using hv
          exact ValidPreserved_trans _ _ _ he1 hw1
        have hlv02 : ∀ t i, lv t = some 0 →
            readPTE st2.ptmem t i = readPTE st.ptmem t i := by
          intro t i hl
          have htf : t ≠ f := fun hc => hfnotlv 0 (hc ▸ hl)
          have htpt : pt ≠ t := by
            intro hc
            rw [hc] at hpt
            rw [hl] at hpt
            simp at hpt
          simp only [hst2, readPTE_write, readPTE_erase]
          rw [if_neg (by intro hc; exact htpt hc.1), if_neg htf]
        obtain ⟨lv', hle', hok', ht0, hpa, hpres, hlv0, hpwf, hfr⟩ :=
          ih st2 f lv1 st' t0 hok1 hlv1f hstep
        refine ⟨lv', ?_, hok', ht0, ?_, ?_, ?_, ?_, ?_⟩
        · intro t l hl
          exact hle' t l (hle1 t l hl)
        · have : st2.nextPA = st.nextPA + PGSIZE := rfl
          unfold PGSIZE at *
          omega
        · exact ValidPreserved_trans _ _ _ hpres2 hpres
        · intro t i hl
          rw [hlv0 t i (hle1 t 0 hl), hlv02 t i hl]
        · unfold pwf
          simp only
          have hval : readPTE st2.ptmem pt (PX (n + 1) va) =
              PA2PTE f ||| PTE_V := by
            simp [hst2, readPTE_write]
          have hval' : readPTE st'.ptmem pt (PX (n + 1) va) =
              PA2PTE f ||| PTE_V := by
            rw [hpres _ _ (by rw [hval]; exact ptr_V_test f), hval]
          rw [hval', if_pos (ptr_V_test f),
            PTE2PA_ptr f hok.2.2.1]
          exact hpwf
        · rw [hfr]

/-- Wrapper of `pw_ok_lv` at the `page_walk` level, also yielding the
`MAXVA` bound and the leaf index. -/
theorem page_walk_ok_lv (st : Mach) (pd va : Nat) (lv : Nat → Option Nat)
    (st' : Mach) (t i : Nat) (hok : LvOk lv st) (hpd : lv pd = some 2)
    (h : page_walk st pd va true = PWOut.ok st' t i) :
    va < MAXVA ∧ i = PX 0 va ∧
    ∃ lv', LvLe lv lv' ∧ LvOk lv' st' ∧ lv' t = some 0 ∧
      st.nextPA ≤ st'.nextPA ∧
      ValidPreserved st.ptmem st'.ptmem ∧
      (∀ u j, lv u = some 0 → readPTE st'.ptmem u j = readPTE st.ptmem u j) ∧
      pwf st'.ptmem va 2 pd = some t ∧
      st'.freed = st.freed := by
  unfold page_walk at h
  by_cases hva : MAXVA ≤ va
  · rw [if_pos hva] at h
    cases h
  · rw [if_neg hva] at h
    cases hl : pw_loop va true 2 st pd with
    | fail s =>
      rw [hl] at h
      cases h
    | ok s pt =>
      rw [hl] at h
      cases h
      exact ⟨by omega, rfl, pw_ok_lv va 2 st pd lv st' t hok hpd hl⟩

/-- The pure walk ignores writes to currently invalid entries. -/
theorem pwf_write_invalid (m : PTMem) (va tw iw v : Nat) (n pt t0 : Nat)
    (hw : readPTE m tw iw &&& PTE_V = 0)
    (h : pwf m va n pt = some t0) :
    pwf (writePTE m tw iw v) va n pt = some t0 :=
  pwf_mono m (writePTE m tw iw v) va (ValidPreserved_write m tw iw v hw) n pt t0 h

/-- Main loop lemma for `map_pages` on a well-formed tree: a successful
run keeps the tree well-formed, preserves valid entries, and installs at
every mapped page boundary a leaf entry holding exactly the requested
physical page and permissions, retraceable by the pure walk on the final
memory. -/
theorem mp_ok_lv (pd perm : Nat) :
    ∀ (n : Nat) (first pa : Nat) (st : Mach) (lv : Nat → Option Nat)
      (st' : Mach),
      LvOk lv st → lv pd = some 2 →
      mp_loop pd perm n first pa st = MPOut.ok st' →
      ∃ lv', LvLe lv lv' ∧ LvOk lv' st' ∧
        ValidPreserved st.ptmem st'.ptmem ∧
        st.nextPA ≤ st'.nextPA ∧
        ∀ j, j < n →
          first + j * PGSIZE < MAXVA ∧
          ∃ tj, pwf st'.ptmem (first + j * PGSIZE) 2 pd = some tj ∧
            readPTE st'.ptmem tj (PX 0 (first + j * PGSIZE)) =
              PA2PTE (pa + j * PGSIZE) ||| perm ||| PTE_V := by
  intro n
  induction n with
  | zero =>
    intro first pa st lv st' hok hpd h
    simp only [mp_loop] at h
    cases h
    exact ⟨lv, fun _ _ hh => hh, hok, fun _ _ _ => rfl, Nat.le_refl _,
      fun j hj => absurd hj (by omega)⟩
  | succ n ih =>
    intro first pa st lv st' hok hpd h
    unfold mp_loop at h
    cases hw : page_walk st pd first true with
    | fatal =>
      rw [hw] at h
      cases h
    | null s =>
      rw [hw] at h
      cases h
    | ok s1 t idx =>
      rw [hw] at h
      simp only at h
      by_cases hv : readPTE s1.ptmem t idx &&& PTE_V ≠ 0
      · rw [if_pos hv] at h
        cases h
      · rw [if_neg hv] at h
        obtain ⟨hmax, hidx, lv1, hle1, hok1, hlvt, hpa1, hpres1, hlv01, hpwf1, hfr1⟩ :=
          page_walk_ok_lv st pd first lv s1 t idx hok hpd hw
        subst hidx
        push_neg at hv
        set v0 : Nat := PA2PTE pa ||| perm ||| PTE_V with hv0
        set st2 : Mach := { s1 with ptmem := writePTE s1.ptmem t (PX 0 first) v0 }
          with hst2
        have hok2 : LvOk lv1 st2 := by
          refine ⟨hok1.1, ?_, hok1.2.2.1, ?_⟩
          · intro u l j hu hvv
            have hut : u ≠ t := by
              intro hc
              rw [hc, hlvt] at hu
              simp at hu
            have hread : readPTE st2.ptmem u j = readPTE s1.ptmem u j := by
              simp only [hst2, readPTE_write]
              rw [if_neg (by rintro ⟨hc, _⟩; exact hut hc.symm)]
            rw [hread] at hvv ⊢
            exact hok1.2.1 u l j hu hvv
          · intro u j hge
            have hnx : st2.nextPA = s1.nextPA := rfl
            simp only [hst2, readPTE_write]
            have hb := (hok1.1 t 0 hlvt).2
            rw [if_neg (by rintro ⟨hc, _⟩; subst hc; unfold PGSIZE at hb; omega)]
            exact hok1.2.2.2 u j (by omega)
        have hpd1 : lv1 pd = some 2 := hle1 pd 2 hpd
        obtain ⟨lv', hle', hok', hpres', hpa', hmap⟩ :=
          ih (first + PGSIZE) (pa + PGSIZE) st2 lv1 st' hok2 hpd1 h
        have hpres12 : ValidPreserved s1.ptmem st2.ptmem :=
          ValidPreserved_write s1.ptmem t (PX 0 first) v0 hv
        refine ⟨lv', fun u l hu => hle' u l (hle1 u l hu),
          hok', ?_, ?_, ?_⟩
        · exact ValidPreserved_trans _ _ _ hpres1
            (ValidPreserved_trans _ _ _ hpres12 hpres')
        · have : st2.nextPA = s1.nextPA := rfl
          omega
        · intro j hj
          cases j with
          | zero =>
            constructor
            · simpa using hmax
            · refine ⟨t, ?_, ?_⟩
              · have h1 : pwf st2.ptmem first 2 pd = some t :=
                  pwf_write_invalid s1.ptmem first t (PX 0 first) v0 2 pd t hv hpwf1
                have h2 : pwf st'.ptmem first 2 pd = some t :=
                  pwf_mono st2.ptmem st'.ptmem first hpres' 2 pd t h1
                simpa using h2
              · have h1 : readPTE st2.ptmem t (PX 0 first) = v0 := by
                  simp [hst2, readPTE_write]
                have h2 : readPTE st'.ptmem t (PX 0 first) = v0 := by
                  rw [hpres' t (PX 0 first) (by rw [h1]; exact leaf_V_test pa perm), h1]
                simpa using h2
          | succ j =>
            have hj' : j < n := by omega
            obtain ⟨hm, tj, hp, he⟩ := hmap j hj'
            have harith : first + PGSIZE + j * PGSIZE = first + (j + 1) * PGSIZE := by
              ring
            have harith2 : pa + PGSIZE + j * PGSIZE = pa + (j + 1) * PGSIZE := by
              ring
            rw [harith] at hm hp he
            rw [harith2] at he
            exact ⟨hm, tj, hp, he⟩

/-- Rounding a page-aligned address down is the identity. -/
theorem ROUNDDOWN_self (va : Nat) (h : va % PGSIZE = 0) :
    ROUNDDOWN va PGSIZE = va := by
  unfold ROUNDDOWN PGSIZE at *
  omega

/-- For a page-aligned base and a positive page-multiple size, the
`first <= last` loop of `map_pages` runs exactly `n` times. -/
theorem pageSpan_aligned (va n : Nat) (hva : va % PGSIZE = 0) (hn : 0 < n) :
    pageSpan va (n * PGSIZE) = n := by
  unfold pageSpan ROUNDDOWN PGSIZE at *
  omega

/-- Permission words carrying R or W fail neither single-bit test. -/
theorem and_rw_split (p : Nat) (h : p &&& (PTE_R ||| PTE_W) ≠ 0) :
    ¬(p &&& PTE_R = 0 ∧ p &&& PTE_W = 0) := by
  rintro ⟨h1, h2⟩
  apply h
  rw [Nat.and_or_distrib_left, h1, h2]
  rfl

/-- Extracting a single permission bit factors through the permission
mask. -/
theorem and_bit_through_mask (e b : Nat) (hb : PTE_PERM_MASK &&& b = b) :
    e &&& b = (e &&& PTE_PERM_MASK) &&& b := by
  rw [Nat.and_assoc, hb]

/-- `lookup_pa` reads back exactly the entry found by the pure walk. -/
theorem lookup_pa_of_pwf (st : Mach) (pd va t e : Nat)
    (hva : va < MAXVA)
    (hp : pwf st.ptmem va 2 pd = some t)
    (he : readPTE st.ptmem t (PX 0 va) = e)
    (hV : e &&& PTE_V ≠ 0)
    (hRW : ¬(e &&& PTE_R = 0 ∧ e &&& PTE_W = 0)) :
    lookup_pa st pd va = PTE2PA e := by
  unfold lookup_pa page_walk
  rw [if_neg (by omega), if_neg (by omega), pw_loop_false, hp]
  simp only
  have hcond : ¬(e &&& PTE_V = 0 ∨ (e &&& PTE_R = 0 ∧ e &&& PTE_W = 0)) := by
    rintro (h | h)
    · exact hV h
    · exact hRW h
  rw [he, if_neg hcond]

/-- C4 (amended): for all page-aligned `va`, `pa` and a size that is a
positive multiple of the page size, with permission bits produced by
`prot_to_type`: after `map_pages` succeeds on a well-formed tree, the
level-0 entry at every page boundary in the range holds exactly
`PA2PTE(pa + offset) | perm | PTE_V`, the permission bits read back from
the entry equal `prot_to_type`'s output, and `lookup_pa` returns the
corresponding physical page address whenever that output carries Read or
Write (execute-only mappings are looked up as 0 by design of
`lookup_pa`). -/
theorem c4_map_pages_lookup (st : Mach) (pd va pa n prot user : Nat)
    (st' : Mach) (hwf : WFpt st pd) (hva : va % PGSIZE = 0)
    (hpa : pa % PGSIZE = 0) (hn : 0 < n)
    (h : map_pages st pd va (n * PGSIZE) pa (prot_to_type prot user) =
      MPOut.ok st') :
    ∀ j, j < n → ∃ t,
      leafLoc st'.ptmem pd (va + j * PGSIZE) =
        some (t, PX 0 (va + j * PGSIZE)) ∧
      readPTE st'.ptmem t (PX 0 (va + j * PGSIZE)) =
        PA2PTE (pa + j * PGSIZE) ||| prot_to_type prot user ||| PTE_V ∧
      readPTE st'.ptmem t (PX 0 (va + j * PGSIZE)) &&& PTE_PERM_MASK =
        prot_to_type prot user ∧
      (prot_to_type prot user &&& (PTE_R ||| PTE_W) ≠ 0 →
        lookup_pa st' pd (va + j * PGSIZE) = pa + j * PGSIZE) := by
  obtain ⟨lv, hpd, hok⟩ := hwf
  unfold map_pages at h
  rw [ROUNDDOWN_self va hva, pageSpan_aligned va n hva hn] at h
  obtain ⟨lv', hle, hok', hpres, hnext, hmap⟩ :=
    mp_ok_lv pd (prot_to_type prot user) n va pa st lv st' hok hpd h
  intro j hj
  obtain ⟨hm, tj, hp, he⟩ := hmap j hj
  obtain ⟨hev, hlt, hself⟩ := prot_to_type_facts prot user
  refine ⟨tj, ?_, he, ?_, ?_⟩
  · unfold leafLoc
    rw [hp]
    rfl
  · rw [he]
    exact entry_perm_readback _ _ hev hlt hself
  · intro hrw
    have hreadback : readPTE st'.ptmem tj (PX 0 (va + j * PGSIZE)) &&&
        PTE_PERM_MASK = prot_to_type prot user := by
      rw [he]
      exact entry_perm_readback _ _ hev hlt hself
    have hmaskR : PTE_PERM_MASK &&& PTE_R = PTE_R := by decide
    have hmaskW : PTE_PERM_MASK &&& PTE_W = PTE_W := by decide
    have heR : readPTE st'.ptmem tj (PX 0 (va + j * PGSIZE)) &&& PTE_R =
        prot_to_type prot user &&& PTE_R := by
      rw [and_bit_through_mask _ PTE_R hmaskR, hreadback]
    have heW : readPTE st'.ptmem tj (PX 0 (va + j * PGSIZE)) &&& PTE_W =
        prot_to_type prot user &&& PTE_W := by
      rw [and_bit_through_mask _ PTE_W hmaskW, hreadback]
    have hRW : ¬(readPTE st'.ptmem tj (PX 0 (va + j * PGSIZE)) &&& PTE_R = 0 ∧
        readPTE st'.ptmem tj (PX 0 (va + j * PGSIZE)) &&& PTE_W = 0) := by
      rintro ⟨h1, h2⟩
      exact and_rw_split _ hrw ⟨by rw [← heR]; exact h1, by rw [← heW]; exact h2⟩
    have hV : readPTE st'.ptmem tj (PX 0 (va + j * PGSIZE)) &&& PTE_V ≠ 0 := by
      rw [he]
      exact leaf_V_test _ _
    have hlook := lookup_pa_of_pwf st' pd (va + j * PGSIZE) tj
      (readPTE st'.ptmem tj (PX 0 (va + j * PGSIZE))) hm hp rfl hV hRW
    rw [hlook, he]
    exact PTE2PA_entry (pa + j * PGSIZE) (prot_to_type prot user)
      (by unfold PGSIZE at hpa ⊢; omega) hev hlt

/-- Witness for C4 at a concrete input: mapping one page at va 0 to pa
`2 * PGSIZE` with read/write user permissions from the empty machine, the
mapped page looks up to exactly `2 * PGSIZE`. -/
theorem c4_map_pages_lookup_witness :
    lookup_pa
      ((mpState (map_pages mach0 0 0 (1 * PGSIZE) (2 * PGSIZE)
        (prot_to_type 3 1))).getD mach0) 0 0 = 2 * PGSIZE := by
  have hwf : WFpt mach0 0 := by
    refine ⟨fun t => if t = 0 then some 2 else none, by simp, ?_, ?_, ?_, ?_⟩
    · intro t l hl
      by_cases ht : t = 0
      · subst ht
        exact ⟨by decide, by decide⟩
      · simp only [if_neg ht] at hl
        cases hl
    · intro t l i hl hv
      have : readPTE mach0.ptmem t i = 0 := rfl
      rw [this] at hv
      exact absurd rfl hv
    · decide
    · intro t i hge
      rfl
  obtain ⟨t, h1, h2, h3, h4⟩ :=
    c4_map_pages_lookup mach0 0 0 (2 * PGSIZE) 1 3 1
      ((mpState (map_pages mach0 0 0 (1 * PGSIZE) (2 * PGSIZE)
        (prot_to_type 3 1))).getD mach0)
      hwf (by decide) (by decide) (by decide) (by decide) 0 (by decide)
  simpa using h4 (by decide)

/-- The walk loop with allocation enabled never disturbs an entry that was
valid in a reference memory `m0` whose pages beyond `N0` are untouched,
and returns a null pointer only when the physical allocator is
exhausted. -/
theorem pw_loop_orig (va : Nat) (m0 : PTMem) (N0 : Nat)
    (hz : HighZero m0 N0) :
    ∀ (n : Nat) (st : Mach) (pt : Nat),
      ValidPreserved m0 st.ptmem → N0 ≤ st.nextPA →
      (∀ st' t0, pw_loop va true n st pt = PWRes.ok st' t0 →
        ValidPreserved m0 st'.ptmem ∧ N0 ≤ st'.nextPA) ∧
      (∀ st', pw_loop va true n st pt = PWRes.fail st' →
        ValidPreserved m0 st'.ptmem ∧ N0 ≤ st'.nextPA ∧ st'.avail = 0) := by
  intro n
  induction n with
  | zero =>
    intro st pt hpv hN
    constructor
    · intro st' t0 h
      cases h
      exact ⟨hpv, hN⟩
    · intro st' h
      cases h
  | succ n ih =>
    intro st pt hpv hN
    unfold pw_loop
    by_cases hv : readPTE st.ptmem pt (PX (n + 1) va) &&& PTE_V ≠ 0
    · rw [if_pos hv]
      exact ih st (PTE2PA (readPTE st.ptmem pt (PX (n + 1) va))) hpv hN
    · rw [if_neg hv]
      simp only [if_pos rfl]
      unfold alloc_page
      by_cases hav : st.avail = 0
      · rw [if_pos hav]
        simp only
        constructor
        · intro st' t0 h
          cases h
        · intro st' h
          cases h
          exact ⟨hpv, hN, hav⟩
      · rw [if_neg hav]
        simp only
        push_neg at hv
        set st2 : Mach :=
          { ptmem := writePTE (erasePage st.ptmem st.nextPA) pt (PX (n + 1) va)
              (PA2PTE st.nextPA ||| PTE_V),
            nextPA := st.nextPA + PGSIZE,
            avail := st.avail - 1,
            freed := st.freed } with hst2
        have hpv2 : ValidPreserved m0 st2.ptmem := by
          intro t i hvv
          have horig : readPTE st.ptmem t i = readPTE m0 t i := hpv t i hvv
          have htf : t ≠ st.nextPA := by
            intro hc
            rw [hc] at hvv
            rw [hz st.nextPA i (by omega)] at hvv
            exact hvv (by decide)
          have hpos : ¬(pt = t ∧ PX (n + 1) va = i) := by
            rintro ⟨rfl, rfl⟩
            rw [horig] at hv
            exact hvv hv
          simp only [hst2, readPTE_write, readPTE_erase]
          rw [if_neg hpos, if_neg htf]
          exact horig
        have hN2 : N0 ≤ st2.nextPA := by
          have : st2.nextPA = st.nextPA + PGSIZE := rfl
          omega
        exact ih st2 st.nextPA hpv2 hN2

/-- The mapping loop never disturbs an entry that was valid in a reference
memory `m0` whose pages beyond `N0` are untouched (whatever the outcome),
returns `-1` only with the allocator exhausted, and panics on remap only
with the offending entry still valid. -/
theorem mp_loop_orig (pd perm : Nat) (m0 : PTMem) (N0 : Nat)
    (hz : HighZero m0 N0) :
    ∀ (n first pa : Nat) (st : Mach),
      ValidPreserved m0 st.ptmem → N0 ≤ st.nextPA →
      ValidPreserved m0 (mpCarried (mp_loop pd perm n first pa st)).ptmem ∧
      (∀ st', mp_loop pd perm n first pa st = MPOut.fail st' →
        st'.avail = 0) ∧
      (∀ st' t i, mp_loop pd perm n first pa st = MPOut.fatalRemap st' t i →
        readPTE st'.ptmem t i &&& PTE_V ≠ 0) := by
  intro n
  induction n with
  | zero =>
    intro first pa st hpv hN
    refine ⟨hpv, ?_, ?_⟩
    · intro st' h
      cases h
    · intro st' t i h
      cases h
  | succ n ih =>
    intro first pa st hpv hN
    unfold mp_loop page_walk
    by_cases hva : MAXVA ≤ first
    · rw [if_pos hva]
      simp only
      refine ⟨hpv, ?_, ?_⟩
      · intro st' h
        cases h
      · intro st' t i h
        cases h
    · rw [if_neg hva]
      obtain ⟨hok, hfail⟩ := pw_loop_orig first m0 N0 hz 2 st pd hpv hN
      cases hl : pw_loop first true 2 st pd with
      | fail s =>
        simp only
        obtain ⟨hpv1, hN1, hav⟩ := hfail s hl
        refine ⟨hpv1, ?_, ?_⟩
        · intro st' h
          cases h
          exact hav
        · intro st' t i h
          cases h
      | ok s t =>
        simp only
        obtain ⟨hpv1, hN1⟩ := hok s t hl
        by_cases hv : readPTE s.ptmem t (PX 0 first) &&& PTE_V ≠ 0
        · rw [if_pos hv]
          refine ⟨hpv1, ?_, ?_⟩
          · intro st' h
            cases h
          · intro st' t' i' h
            cases h
            exact hv
        · rw [if_neg hv]
          push_neg at hv
          have hpv2 : ValidPreserved m0
              (writePTE s.ptmem t (PX 0 first)
                (PA2PTE pa ||| perm ||| PTE_V)) := by
            intro u j hvv
            rw [readPTE_write]
            have : ¬(t = u ∧ PX 0 first = j) := by
              rintro ⟨rfl, rfl⟩
              rw [hpv1 t (PX 0 first) hvv] at hv
              exact hvv hv
            rw [if_neg this]
            exact hpv1 u j hvv
          exact ih (first + PGSIZE) (pa + PGSIZE)
            { s with ptmem := writePTE s.ptmem t (PX 0 first) (PA2PTE pa ||| perm ||| PTE_V) } hpv2 hN1

/-- C6: the `map_pages` contract.  On any machine whose pages beyond the
allocation watermark are untouched: (a) whatever the outcome, every entry
that was already valid before the call is left exactly as it was — in
particular a valid target entry is never silently overwritten, the call
aborts fatally instead, and (b) the non-fatal `-1` failure return occurs
only when the underlying physical-page allocator is exhausted while
creating an intermediate table (`page_walk` returning null), and (c) a
remap panic always exhibits a still-valid pre-existing target entry. -/
theorem c6_map_pages_contract (st : Mach) (pd va size pa perm : Nat)
    (hz : HighZero st.ptmem st.nextPA) :
    ValidPreserved st.ptmem (mpCarried (map_pages st pd va size pa perm)).ptmem ∧
    (∀ st', map_pages st pd va size pa perm = MPOut.fail st' →
      st'.avail = 0) ∧
    (∀ st' t i, map_pages st pd va size pa perm = MPOut.fatalRemap st' t i →
      readPTE st'.ptmem t i &&& PTE_V ≠ 0) := by
  unfold map_pages
  exact mp_loop_orig pd perm st.ptmem st.nextPA hz (pageSpan va size)
    (ROUNDDOWN va PGSIZE) pa st (fun _ _ _ => rfl) (Nat.le_refl _)

/-- Witness for C6 at a concrete input: remapping the already-mapped page
of the C4 counterexample machine panics with the entry still valid and
intact, and a fresh `map_pages` with an exhausted allocator fails with
`-1`. -/
theorem c6_map_pages_contract_witness :
    ValidPreserved machX.ptmem
      (mpCarried (map_pages machX 0 0 PGSIZE (3 * PGSIZE) permRW)).ptmem ∧
    (∀ st', map_pages machX 0 0 PGSIZE (3 * PGSIZE) permRW = MPOut.fail st' →
      st'.avail = 0) ∧
    (∀ st' t i, map_pages machX 0 0 PGSIZE (3 * PGSIZE) permRW =
      MPOut.fatalRemap st' t i → readPTE st'.ptmem t i &&& PTE_V ≠ 0) :=
  c6_map_pages_contract machX 0 0 PGSIZE (3 * PGSIZE) permRW (by
    intro t i h
    have h1 : machX.ptmem = [((8192, 0), 2137), ((4096, 0), 2049), ((0, 0), 1025)] := by
      decide
    have h2 : machX.nextPA = 12288 := by decide
    rw [h2] at h
    rw [h1]
    simp only [readPTE]
    rw [if_neg (by rintro ⟨ha, hb⟩; omega),
      if_neg (by rintro ⟨ha, hb⟩; omega),
      if_neg (by rintro ⟨ha, hb⟩; omega)])

/-- Clearing the validity bit twice is the same as once. -/
theorem and_NOTV_idem (x : Nat) : x &&& NOTV &&& NOTV = x &&& NOTV := by
  rw [Nat.and_assoc, Nat.and_self]

/-- An entry with the validity bit cleared fails the validity test. -/
theorem and_NOTV_V (e : Nat) : e &&& NOTV &&& PTE_V = 0 := by
  rw [Nat.and_assoc]
  have : NOTV &&& PTE_V = 0 := by decide
  rw [this, Nat.and_zero]

/-- For a 64-bit value, `&= ~PTE_V` is exactly the removal of bit zero. -/
theorem and_NOTV_sub (e : Nat) (he : e < 2 ^ 64) :
    e &&& NOTV = e - e % 2 := by
  have h2 : e - e % 2 = 2 ^ 1 * (e / 2) := by omega
  rw [h2]
  apply Nat.eq_of_testBit_eq
  intro i
  rw [Nat.testBit_and, Nat.testBit_mul_pow_two]
  have hNOTV : NOTV = 2 ^ 1 * (2 ^ 63 - 1) := by decide
  cases i with
  | zero =>
    simp [hNOTV, Nat.testBit_mul_pow_two]
  | succ i =>
    rw [hNOTV, Nat.testBit_mul_pow_two]
    have hge : (decide (i + 1 ≥ 1)) = true := by simp
    rw [hge, Bool.true_and, Nat.add_sub_cancel,
      Nat.testBit_two_pow_sub_one, Nat.testBit_div_two]
    by_cases hi : i < 63
    · simp [hi]
    · have h64 : 2 ^ 64 ≤ 2 ^ (i + 1) :=
        Nat.pow_le_pow_right (by omega) (by omega)
      have : e.testBit (i + 1) = false :=
        Nat.testBit_lt_two_pow (by omega)
      simp [hi, this]

/-- Clearing the validity bit does not move the physical page number. -/
theorem PTE2PA_NOTV (e : Nat) (he : e < 2 ^ 64) :
    PTE2PA (e &&& NOTV) = PTE2PA e := by
  rw [and_NOTV_sub e he]
  unfold PTE2PA
  omega

/-- On a well-formed tree, the pure walk can only land in a level-0
table. -/
theorem pwf_lands_lv0 (st : Mach) (lv : Nat → Option Nat) (va : Nat)
    (hok : LvOk lv st) :
    ∀ (l : Nat) (pt t0 : Nat), lv pt = some l →
      pwf st.ptmem va l pt = some t0 → lv t0 = some 0 := by
  intro l
  induction l with
  | zero =>
    intro pt t0 hpt h
    cases h
    exact hpt
  | succ l ih =>
    intro pt t0 hpt h
    unfold pwf at h
    simp only at h
    by_cases hv : readPTE st.ptmem pt (PX (l + 1) va) &&& PTE_V ≠ 0
    · rw [if_pos hv] at h
      obtain ⟨t', he, hlv⟩ := hok.2.1 pt l _ hpt hv
      rw [he, PTE2PA_ptr t' (hok.1 t' l hlv).1] at h
      exact ih t' t0 hlv h
    · rw [if_neg hv] at h
      cases h

/-- On a well-formed tree, a write into a level-0 table is invisible to
the pure walk from any table of the tree. -/
theorem pwf_leaf_write_stable (st : Mach) (lv : Nat → Option Nat)
    (va tw iw v : Nat) (hok : LvOk lv st) (htw : lv tw = some 0) :
    ∀ (l : Nat) (pt : Nat), lv pt = some l →
      pwf (writePTE st.ptmem tw iw v) va l pt = pwf st.ptmem va l pt := by
  intro l
  induction l with
  | zero => intro pt hpt; rfl
  | succ l ih =>
    intro pt hpt
    unfold pwf
    simp only
    have hne : ¬(tw = pt ∧ iw = PX (l + 1) va) := by
      rintro ⟨rfl, _⟩
      rw [htw] at hpt
      cases hpt
    rw [readPTE_write, if_neg hne]
    by_cases hv : readPTE st.ptmem pt (PX (l + 1) va) &&& PTE_V ≠ 0
    · rw [if_pos hv, if_pos hv]
      obtain ⟨t', he, hlv⟩ := hok.2.1 pt l _ hpt hv
      rw [he, PTE2PA_ptr t' (hok.1 t' l hlv).1]
      exact ih t' hlv
    · rw [if_neg hv, if_neg hv]

/-- A successful pure walk makes the allocating walk succeed without
touching the state. -/
theorem pw_loop_true_of_pwf (va : Nat) :
    ∀ (n : Nat) (st : Mach) (pt t0 : Nat),
      pwf st.ptmem va n pt = some t0 →
      pw_loop va true n st pt = PWRes.ok st t0 := by
  intro n
  induction n with
  | zero =>
    intro st pt t0 h
    cases h
    rfl
  | succ n ih =>
    intro st pt t0 h
    unfold pwf at h
    simp only at h
    unfold pw_loop
    by_cases hv : readPTE st.ptmem pt (PX (n + 1) va) &&& PTE_V ≠ 0
    · rw [if_pos hv] at h
      rw [if_pos hv]
      exact ih st _ t0 h
    · rw [if_neg hv] at h
      cases h

/-- Well-formedness is unaffected by writes into level-0 tables and by
changes to the free list. -/
theorem LvOk_leaf_write (st : Mach) (lv : Nat → Option Nat)
    (tw iw v : Nat) (fr : List Nat) (hok : LvOk lv st) (htw : lv tw = some 0) :
    LvOk lv { st with ptmem := writePTE st.ptmem tw iw v, freed := fr } := by
  refine ⟨hok.1, ?_, hok.2.2.1, ?_⟩
  · intro t l i hl hv
    have hne : ¬(tw = t ∧ iw = i) := by
      rintro ⟨rfl, _⟩
      rw [htw] at hl
      cases hl
    simp only [readPTE_write, if_neg hne] at hv ⊢
    exact hok.2.1 t l i hl hv
  · intro t i hge
    have hb := (hok.1 tw 0 htw).2
    have hge' : st.nextPA ≤ t := hge
    simp only [readPTE_write]
    rw [if_neg (by rintro ⟨rfl, _⟩; unfold PGSIZE at hb; omega)]
    exact hok.2.2.2 t i hge' 

/-- Main loop lemma for `user_vm_unmap` over a fully mapped range on a
well-formed tree: the loop succeeds by pure walks, clears exactly the
validity bit of each visited leaf entry, changes nothing else in level-0
tables beyond such clears, and hands every visited backing page to the
external allocator. -/
theorem uvu_ok_pure (pd : Nat) (lv : Nat → Option Nat) (hpd : lv pd = some 2) :
    ∀ (n first : Nat) (st st' : Mach),
      LvOk lv st →
      (∀ j, j < n → first + j * PGSIZE < MAXVA ∧
        ∃ t, pwf st.ptmem (first + j * PGSIZE) 2 pd = some t) →
      uvu_loop pd n first st = some st' →
      (∀ u i, lv u = some 0 →
        readPTE st'.ptmem u i = readPTE st.ptmem u i ∨
        readPTE st'.ptmem u i = readPTE st.ptmem u i &&& NOTV) ∧
      (∀ x, x ∈ st.freed → x ∈ st'.freed) ∧
      (∀ j, j < n → ∀ t, pwf st.ptmem (first + j * PGSIZE) 2 pd = some t →
        readPTE st'.ptmem t (PX 0 (first + j * PGSIZE)) =
          readPTE st.ptmem t (PX 0 (first + j * PGSIZE)) &&& NOTV ∧
        PTE2PA (readPTE st.ptmem t (PX 0 (first + j * PGSIZE)) &&& NOTV) ∈
          st'.freed) := by
  intro n
  induction n with
  | zero =>
    intro first st st' hok hall h
    cases h
    exact ⟨fun u i _ => Or.inl rfl, fun x hx => hx,
      fun j hj => absurd hj (by omega)⟩
  | succ n ih =>
    intro first st st' hok hall h
    obtain ⟨hm0, t, hp⟩ := hall 0 (by omega)
    rw [Nat.mul_comm, Nat.mul_zero, Nat.add_zero] at hm0 hp
    have hw : page_walk st pd first true = PWOut.ok st t (PX 0 first) := by
      unfold page_walk
      rw [if_neg (by omega), pw_loop_true_of_pwf first 2 st pd t hp]
    unfold uvu_loop at h
    rw [hw] at h
    simp only at h
    set e0 : Nat := readPTE st.ptmem t (PX 0 first) with he0
    set st2 : Mach := { st with ptmem := writePTE st.ptmem t (PX 0 first) (e0 &&& NOTV), freed := PTE2PA (e0 &&& NOTV) :: st.freed } with hst2
    have hsame : free_page { st with ptmem := writePTE st.ptmem t (PX 0 first) (e0 &&& NOTV) } (PTE2PA (e0 &&& NOTV)) = st2 := rfl
    rw [hsame] at h
    have hlvt : lv t = some 0 := pwf_lands_lv0 st lv first hok 2 pd t hpd hp
    have hok2 : LvOk lv st2 :=
      LvOk_leaf_write st lv t (PX 0 first) (e0 &&& NOTV)
        (PTE2PA (e0 &&& NOTV) :: st.freed) hok hlvt
    have hstable : ∀ va', pwf st2.ptmem va' 2 pd = pwf st.ptmem va' 2 pd :=
      fun va' => pwf_leaf_write_stable st lv va' t (PX 0 first)
        (e0 &&& NOTV) hok hlvt 2 pd hpd
    have hall2 : ∀ j, j < n → first + PGSIZE + j * PGSIZE < MAXVA ∧
        ∃ u, pwf st2.ptmem (first + PGSIZE + j * PGSIZE) 2 pd = some u := by
      intro j hj
      obtain ⟨hmj, u, hu⟩ := hall (j + 1) (by omega)
      have harith : first + (j + 1) * PGSIZE = first + PGSIZE + j * PGSIZE := by
        ring
      rw [harith] at hmj hu
      exact ⟨hmj, u, by rw [hstable]; exact hu⟩
    obtain ⟨hC1, hC2, hC3⟩ := ih (first + PGSIZE) st2 st' hok2 hall2 h
    have hread2 : ∀ u i, readPTE st2.ptmem u i =
        if t = u ∧ PX 0 first = i then e0 &&& NOTV
        else readPTE st.ptmem u i := by
      intro u i
      simp only [hst2, readPTE_write]
    refine ⟨?_, ?_, ?_⟩
    · intro u i hu
      rcases hC1 u i hu with h1 | h1
      · rw [h1, hread2]
        by_cases hc : t = u ∧ PX 0 first = i
        · rw [if_pos hc]
          rcases hc with ⟨rfl, rfl⟩
          exact Or.inr (by rw [← he0])
        · rw [if_neg hc]
          exact Or.inl rfl
      · rw [h1, hread2]
        by_cases hc : t = u ∧ PX 0 first = i
        · rw [if_pos hc]
          rcases hc with ⟨rfl, rfl⟩
          rw [and_NOTV_idem]
          exact Or.inr (by rw [← he0])
        · rw [if_neg hc]
          exact Or.inr rfl
    · intro x hx
      exact hC2 x (by simp [hst2, hx])
    · intro j hj u hu
      cases j with
      | zero =>
        rw [Nat.mul_comm, Nat.mul_zero, Nat.add_zero] at hu ⊢
        rw [hp] at hu
        cases hu
        constructor
        · rcases hC1 t (PX 0 first) hlvt with h1 | h1
          · rw [h1, hread2, if_pos ⟨rfl, rfl⟩, ← he0]
          · rw [h1, hread2, if_pos ⟨rfl, rfl⟩, and_NOTV_idem, ← he0]
        · refine hC2 _ ?_
          rw [← he0]
          simp [hst2]
      | succ j =>
        have hjn : j < n := by omega
        have harith : first + (j + 1) * PGSIZE = first + PGSIZE + j * PGSIZE := by
          ring
        rw [harith] at hu ⊢
        have hu2 : pwf st2.ptmem (first + PGSIZE + j * PGSIZE) 2 pd = some u := by
          rw [hstable]
          exact hu
        obtain ⟨hres, hfree⟩ := hC3 j hjn u hu2
        rw [hread2] at hres hfree
        by_cases hc : t = u ∧ PX 0 first = PX 0 (first + PGSIZE + j * PGSIZE)
        · rw [if_pos hc] at hres hfree
          rcases hc with ⟨rfl, hceq⟩
          rw [← hceq] at hres
          rw [← hceq]
          rw [and_NOTV_idem] at hres hfree
          rw [← he0]
          exact ⟨hres, hfree⟩
        · rw [if_neg hc] at hres hfree
          exact ⟨hres, hfree⟩

/-- C7: `user_vm_unmap` ignores its `free_physical` flag entirely — the
result is identical for every flag value — and, over a mapped range on a
well-formed tree, it clears the validity bit of the leaf entry of every
page-aligned address in the range (leaving the rest of the entry intact)
and hands the backing physical page to the external allocator
unconditionally. -/
theorem c7_unmap_flag_inert (st : Mach) (pd va n fr : Nat) (st' : Mach)
    (hwf : WFpt st pd) (hva : va % PGSIZE = 0) (hn : 0 < n)
    (hrange : ∀ j, j < n → va + j * PGSIZE < MAXVA ∧
      ∃ t, pwf st.ptmem (va + j * PGSIZE) 2 pd = some t)
    (h : user_vm_unmap st pd va (n * PGSIZE) fr = some st') :
    (∀ f1 f2, user_vm_unmap st pd va (n * PGSIZE) f1 =
      user_vm_unmap st pd va (n * PGSIZE) f2) ∧
    ∀ j, j < n → ∀ t, pwf st.ptmem (va + j * PGSIZE) 2 pd = some t →
      readPTE st'.ptmem t (PX 0 (va + j * PGSIZE)) =
        readPTE st.ptmem t (PX 0 (va + j * PGSIZE)) &&& NOTV ∧
      readPTE st'.ptmem t (PX 0 (va + j * PGSIZE)) &&& PTE_V = 0 ∧
      (readPTE st.ptmem t (PX 0 (va + j * PGSIZE)) < 2 ^ 64 →
        PTE2PA (readPTE st.ptmem t (PX 0 (va + j * PGSIZE))) ∈ st'.freed) := by
  obtain ⟨lv, hpd, hok⟩ := hwf
  constructor
  · intro f1 f2
    rfl
  · unfold user_vm_unmap at h
    rw [ROUNDDOWN_self va hva, pageSpan_aligned va n hva hn] at h
    obtain ⟨hC1, hC2, hC3⟩ := uvu_ok_pure pd lv hpd n va st st' hok hrange h
    intro j hj t hp
    obtain ⟨hres, hfree⟩ := hC3 j hj t hp
    refine ⟨hres, by rw [hres]; exact and_NOTV_V _, ?_⟩
    intro hlt
    rw [← PTE2PA_NOTV _ hlt]
    exact hfree

/-- Witness for C7 at a concrete input: unmapping the single mapped page
of the C4 counterexample machine clears its entry's validity bit and
reclaims the backing page, for any flag value. -/
theorem c7_unmap_flag_inert_witness :
    (∀ f1 f2, user_vm_unmap machX 0 0 (1 * PGSIZE) f1 =
      user_vm_unmap machX 0 0 (1 * PGSIZE) f2) ∧
    readPTE ((user_vm_unmap machX 0 0 (1 * PGSIZE) 0).getD machX).ptmem
        8192 0 &&& PTE_V = 0 ∧
    PTE2PA (readPTE machX.ptmem 8192 0) ∈
      ((user_vm_unmap machX 0 0 (1 * PGSIZE) 0).getD machX).freed := by
  have hwf : WFpt machX 0 := by
    refine ⟨fun t => if t = 0 then some 2 else if t = 4096 then some 1
      else if t = 8192 then some 0 else none, by simp, ?_, ?_, ?_, ?_⟩
    · intro t l hl
      by_cases h0 : t = 0
      · subst h0; exact ⟨by decide, by decide⟩
      · by_cases h4 : t = 4096
        · subst h4; exact ⟨by decide, by decide⟩
        · by_cases h8 : t = 8192
          · subst h8; exact ⟨by decide, by decide⟩
          · simp only [if_neg h0, if_neg h4, if_neg h8] at hl
            cases hl
    · intro t l i hl hv
      have hm : machX.ptmem = [((8192, 0), 2137), ((4096, 0), 2049),
          ((0, 0), 1025)] := by decide
      by_cases hi : i = 0
      · subst hi
        by_cases h0 : t = 0
        · subst h0
          have hl2 : some 2 = some (l + 1) := hl
          have hl3 : l = 1 := by
            have := Option.some.inj hl2
            omega
          subst hl3
          exact ⟨4096, by decide, by decide⟩
        · by_cases h4 : t = 4096
          · subst h4
            have hl2 : some 1 = some (l + 1) := by
              rw [← hl]
              decide
            have hl3 : l = 0 := by
              have := Option.some.inj hl2
              omega
            subst hl3
            exact ⟨8192, by decide, by decide⟩
          · by_cases h8 : t = 8192
            · subst h8
              have hl2 : some 0 = some (l + 1) := by
                rw [← hl]
                decide
              have := Option.some.inj hl2
              omega
            · simp only [if_neg h0, if_neg h4, if_neg h8] at hl
              cases hl
      · have hi2 : ¬(0 = i) := fun hc => hi hc.symm
        have hz : readPTE machX.ptmem t i = 0 := by
          rw [hm]
          simp [readPTE, hi2]
        rw [hz] at hv
        exact absurd (by decide) hv
    · decide
    · intro t i hge
      have hm : machX.ptmem = [((8192, 0), 2137), ((4096, 0), 2049),
          ((0, 0), 1025)] := by decide
      have hx : machX.nextPA = 12288 := by decide
      rw [hx] at hge
      rw [hm]
      simp only [readPTE]
      rw [if_neg (by rintro ⟨ha, _⟩; omega),
        if_neg (by rintro ⟨ha, _⟩; omega),
        if_neg (by rintro ⟨ha, _⟩; omega)]
  have hrange : ∀ j, j < 1 → 0 + j * PGSIZE < MAXVA ∧
      ∃ t, pwf machX.ptmem (0 + j * PGSIZE) 2 0 = some t := by
    intro j hj
    have : j = 0 := by omega
    subst this
    exact ⟨by decide, 8192, by decide⟩
  have hc := c7_unmap_flag_inert machX 0 0 1 0
    ((user_vm_unmap machX 0 0 (1 * PGSIZE) 0).getD machX)
    hwf (by decide) (by decide) hrange (by decide)
  obtain ⟨hflag, hmain⟩ := hc
  obtain ⟨h1, h2, h3⟩ := hmain 0 (by decide) 8192 (by decide)
  refine ⟨hflag, ?_, ?_⟩
  · simpa using h2
  · simpa using h3 (by decide)

/-- C10: once a small-path free has coalesced a segment to one full page
and physically freed its backing page, the node remains on the valid
Segment Info list marked free with size `PGSIZE`; a subsequent
`user_malloc_small` whose request the code's first-fit scan resolves to
that node succeeds, returns that segment's address, and leaves the
machine state untouched — no mapping is re-established — so `lookup_pa`
on the returned address still yields 0. -/
theorem c10_reuse_unmapped (st : AllocState) (s perm k aid va0 : Nat)
    (hfind : findFitIdx s st.segs = some k)
    (hget : st.segs[k]? = some ⟨aid, va0, PGSIZE, false⟩)
    (hpool : st.segEmpty ≠ [])
    (hlook : lookup_pa st.mach st.pagetable va0 = 0) :
    ∃ st', user_malloc_small st s perm = some (st', va0) ∧
      st'.mach = st.mach ∧ st'.pagetable = st.pagetable ∧
      lookup_pa st'.mach st'.pagetable va0 = 0 := by
  unfold user_malloc_small
  rw [hfind]
  unfold seg_take
  simp only [List.get?_eq_getElem?]
  rw [hget]
  simp only
  by_cases hs : s < PGSIZE
  · rw [if_pos hs]
    obtain ⟨r, rest, hre⟩ := List.exists_cons_of_ne_nil hpool
    unfold get_segment_info get_element
    rw [hre]
    simp only [Option.map_some']
    refine ⟨_, rfl, rfl, rfl, ?_⟩
    exact hlook
  · rw [if_neg hs]
    exact ⟨_, rfl, rfl, rfl, hlook⟩

/-- Witness for C10 on the concrete C3 trace: after `user_malloc(64)` and
`user_free` of it, re-allocating 64 bytes returns the same address with
the page table untouched, and that address translates to 0. -/
theorem c10_reuse_unmapped_witness :
    smallSt3.mach.ptmem = smallSt2.mach.ptmem ∧
    smallVa3 = smallVa1 ∧
    lookup_pa smallSt3.mach smallSt3.pagetable smallVa3 = 0 := by
  obtain ⟨st', h1, hm, hpt, hl⟩ :=
    c10_reuse_unmapped smallSt2 64 permRW 0 8160 smallVa1
      (by decide) (by decide) (by decide) (by decide)
  have h3 : smallSt3 = st' := by
    unfold smallSt3 smallTr3
    rw [show user_malloc_small smallSt2 64 permRW = some (st', smallVa1) from h1]
    rfl
  have h4 : smallVa3 = smallVa1 := by
    unfold smallVa3 smallTr3
    rw [show user_malloc_small smallSt2 64 permRW = some (st', smallVa1) from h1]
    rfl
  refine ⟨?_, h4, ?_⟩
  · rw [h3, hm]
  · rw [h3, h4]
    exact hl
